import Mathlib

/-!
Verification development for the `mcp_pydantic_docs` repository.

Python strings are modelled as `List Char`; Python string primitives
(`strip`, `split`, `replace`, `lower`, …) are given as executable Lean
functions on character lists, restricted to the ASCII whitespace model
(`\s` = space, tab, newline, carriage return, vertical tab, form feed).
External libraries (the tiktoken subword tokenizer, BeautifulSoup's DOM)
are abstracted: the token counter is a function parameter, and a cleaned
page is a flat list of element nodes carrying level, id and text.
-/

namespace PyStr

/-- Python's notion of a whitespace character, ASCII fragment
(matches `str.strip()` / regex `\s` on ASCII input). -/
def pyIsSpace (c : Char) : Bool :=
  c = ' ' || c = '\t' || c = '\n' || c = '\r' || c = '\x0b' || c = '\x0c'

/-- Python `s.strip()`: drop whitespace from both ends. -/
def pyStrip (l : List Char) : List Char :=
  ((l.dropWhile pyIsSpace).reverse.dropWhile pyIsSpace).reverse

/-- Extend the first segment of a split result by one character. -/
def consHead (c : Char) : List (List Char) → List (List Char)
  | [] => [[c]]
  | seg :: segs => (c :: seg) :: segs

/-- Python `s.split("\n\n")`: split on non-overlapping occurrences of the
two-newline separator, leftmost first; the empty string yields `[""]`. -/
def splitParas : List Char → List (List Char)
  | [] => [[]]
  | '\n' :: '\n' :: rest => [] :: splitParas rest
  | c :: rest => consHead c (splitParas rest)

/-- Python `"\n\n".join(xs)`. -/
def joinParas : List (List Char) → List Char
  | [] => []
  | [x] => x
  | x :: xs => x ++ '\n' :: '\n' :: joinParas xs

/-- Erase every whitespace character; two texts equal up to whitespace
normalization are identified by this projection. -/
def removeWs (l : List Char) : List Char :=
  l.filter (fun c => !pyIsSpace c)

end PyStr

namespace Indexer

open PyStr

/-- `indexer.MAX_TOK`: the target chunk size. -/
def MAX_TOK : Nat := 1200

/-- The paragraph-accumulation loop of `indexer.chunk_markdown`
(`for para in text.split("\n\n"): ...` followed by the final
`if acc: out.append(...)`).  `tokLen` abstracts `tok_len` (the external
tiktoken `cl100k_base` token counter); `acc`/`count` are the Python
`acc`/`count` variables, and the emitted chunks are returned in order. -/
def chunkLoop (tokLen : List Char → Nat) (maxTok : Nat) :
    List (List Char) → List (List Char) → Nat → List (List Char)
  | [], acc, _ => if acc = [] then [] else [pyStrip (joinParas acc)]
  | p :: ps, acc, count =>
    if acc ≠ [] ∧ maxTok < count + tokLen p then
      pyStrip (joinParas acc) :: chunkLoop tokLen maxTok ps [p] (tokLen p)
    else
      chunkLoop tokLen maxTok ps (acc ++ [p]) (count + tokLen p)

/-- `indexer.chunk_markdown(text, max_tok)`: return `[text.strip()]` when the
whole text fits the budget, otherwise greedily pack paragraphs and drop
empty chunks (`[s for s in out if s]`). -/
def chunk_markdown (tokLen : List Char → Nat) (text : List Char) (maxTok : Nat) :
    List (List Char) :=
  if tokLen text ≤ maxTok then [pyStrip text]
  else (chunkLoop tokLen maxTok (splitParas text) [] 0).filter (fun s => !s.isEmpty)

end Indexer


namespace PyStr

/-- Python `s.split()` with no separator: split on whitespace runs,
dropping empty tokens. -/
def pyWsSplit (l : List Char) : List (List Char) :=
  match l with
  | [] => []
  | c :: rest =>
    if pyIsSpace c then pyWsSplit rest
    else (c :: rest.takeWhile (fun d => !pyIsSpace d)) ::
      pyWsSplit (rest.dropWhile (fun d => !pyIsSpace d))
termination_by l.length
decreasing_by
  · simp_arith
  · simp only [List.length_cons]
    have hle : ∀ (m : List Char), (m.dropWhile (fun d => !pyIsSpace d)).length ≤ m.length := by
      intro m
      induction m with
      | nil => simp
      | cons a as ih =>
        by_cases ha : (!pyIsSpace a) = true <;> simp [List.dropWhile_cons, ha] <;> omega
    exact Nat.lt_succ_of_le (hle rest)

/-- One pass of the regex substitution `\s+` → `" "`: collapse every maximal
whitespace run to a single space.  The flag records whether the previous
character was inside a whitespace run. -/
def collapseWsAux : Bool → List Char → List Char
  | _, [] => []
  | prevWs, c :: rest =>
    if pyIsSpace c then
      if prevWs then collapseWsAux true rest
      else ' ' :: collapseWsAux true rest
    else c :: collapseWsAux false rest

/-- Regex substitution `re.sub(r"\s+", " ", s)`. -/
def collapseWs (l : List Char) : List Char := collapseWsAux false l

/-- Python `str.lower()`, ASCII model (`Char.toLower`). -/
def pyLower (l : List Char) : List Char := l.map Char.toLower

end PyStr

namespace Indexer

open PyStr

/-- The character class `[a-z0-9_#\-\s]` kept by the tokenizer regex
substitution in `build_index.tokenize` / `mcp._tokenize`. -/
def tokenKeep (c : Char) : Bool :=
  ('a' ≤ c && c ≤ 'z') || ('0' ≤ c && c ≤ '9') ||
    c = '_' || c = '#' || c = '-' || pyIsSpace c

/-- `tokenize` defined inside `indexer.build_index`: lower-case, replace every
character outside `[a-z0-9_#\-\s]` by a space, split on whitespace, keep only
tokens of length > 1. -/
def tokenize (text : List Char) : List (List Char) :=
  (pyWsSplit ((pyLower text).map (fun c => if tokenKeep c then c else ' '))).filter
    (fun t => 1 < t.length)

/-- `indexer.tok_len`: `len(_ENC.encode(s))` when the tiktoken encoder was
loaded, and `raise RuntimeError(...)` when it was not (`_ENC is None`).
The external encoder is the function parameter `enc`; the raised
`RuntimeError` is modelled as `Except.error ()`. -/
def tok_len (enc : Option (List Char → Nat)) (s : List Char) : Except Unit Nat :=
  match enc with
  | none => .error ()
  | some f => .ok (f s)

/-- The loop of `chunk_markdown` as actually executed: every token count goes
through `tok_len`, so a missing encoder propagates as an error. -/
def chunkLoopE (enc : Option (List Char → Nat)) (maxTok : Nat) :
    List (List Char) → List (List Char) → Nat → Except Unit (List (List Char))
  | [], acc, _ => .ok (if acc = [] then [] else [pyStrip (joinParas acc)])
  | p :: ps, acc, count => do
    let t ← tok_len enc p
    if acc ≠ [] ∧ maxTok < count + t then
      (chunkLoopE enc maxTok ps [p] t).map (fun out : List (List Char) => pyStrip (joinParas acc) :: out)
    else
      chunkLoopE enc maxTok ps (acc ++ [p]) (count + t)

/-- `indexer.chunk_markdown` with the fallibility of `tok_len` made explicit:
when the tiktoken encoder is unavailable the very first `tok_len(text)` call
raises, so the whole call fails instead of degrading. -/
def chunk_markdownE (enc : Option (List Char → Nat)) (text : List Char)
    (maxTok : Nat) : Except Unit (List (List Char)) := do
  let n ← tok_len enc text
  if n ≤ maxTok then pure [pyStrip text]
  else do
    let out ← chunkLoopE enc maxTok (splitParas text) [] 0
    pure (out.filter (fun s => !s.isEmpty))

end Indexer

namespace Server

open PyStr

/-- `mcp._tokenize`: lower-case, replace every character outside
`[a-z0-9_#\-\s]` by a space, split on whitespace, keep only tokens of
length > 1 (the query-time tokenizer of the server). -/
def tokenize (s : List Char) : List (List Char) :=
  (pyWsSplit ((pyLower s).map (fun c => if Indexer.tokenKeep c then c else ' '))).filter
    (fun t => 1 < t.length)

end Server

namespace SourceExtractor

open PyStr

/-- The fallback slicing of `source_extractor.chunk_text`
(`[text[i:i+max_chars] for i in range(0, len(text), max_chars)]`).
Python raises `ValueError` for a zero step; the model returns `[]` there and
the theorems assume a positive budget. -/
def sliceChunks (w : Nat) (l : List Char) : List (List Char) :=
  if hw : w = 0 then []
  else if h : l = [] then []
  else l.take w :: sliceChunks w (l.drop w)
termination_by l.length
decreasing_by
  have hl : 0 < l.length := List.length_pos.mpr h
  simp only [List.length_drop]
  omega

/-- The paragraph loop of `source_extractor.chunk_text` (no stripping of the
emitted chunks, no final empty filter — unlike `indexer.chunk_markdown`). -/
def chunkTextLoop (encLen : List Char → Nat) (maxTokens : Nat) :
    List (List Char) → List (List Char) → Nat → List (List Char)
  | [], cur, _ => if cur = [] then [] else [joinParas cur]
  | p :: ps, cur, curTok =>
    if maxTokens < curTok + encLen p ∧ cur ≠ [] then
      joinParas cur :: chunkTextLoop encLen maxTokens ps [p] (encLen p)
    else
      chunkTextLoop encLen maxTokens ps (cur ++ [p]) (curTok + encLen p)

/-- `source_extractor.chunk_text(text, max_tokens=1200)`: token-aware chunking
when the tiktoken encoding loads (`enc = some encLen`); character slicing into
pieces of `max_tokens * 4` characters when loading fails (the `except` branch,
`enc = none`); empty text yields `[]`.  No error escapes. -/
def chunk_text (enc : Option (List Char → Nat)) (text : List Char)
    (maxTokens : Nat) : List (List Char) :=
  if text = [] then []
  else
    match enc with
    | some encLen =>
      if encLen text ≤ maxTokens then [text]
      else chunkTextLoop encLen maxTokens (splitParas text) [] 0
    | none => sliceChunks (maxTokens * 4) text

end SourceExtractor


namespace PyStr

/-- Python `s.split(sep)` for a single-character separator. -/
def splitChar (sep : Char) : List Char → List (List Char)
  | [] => [[]]
  | c :: rest => if c = sep then [] :: splitChar sep rest else consHead c (splitChar sep rest)

/-- Python `"\n".join(xs)`. -/
def joinNl : List (List Char) → List Char
  | [] => []
  | [x] => x
  | x :: xs => x ++ '\n' :: joinNl xs

end PyStr

namespace Docs

/-- A cleaned documentation page, abstracted from BeautifulSoup's DOM as a
flat list of sibling element nodes.  A `heading` is an `h<level>` element
carrying an optional `id` attribute and its visible text
(`get_text(" ", strip=True)` is abstracted as the stored text); `content`
is any other element (paragraph, list, …) with an optional `id` and its
text, which also stands for the element's serialization `str(element)`.
Bare text between elements (`NavigableString`s, which the source skips)
is not represented. -/
inductive Node where
  | heading (level : Nat) (id : Option (List Char)) (text : List Char)
  | content (id : Option (List Char)) (text : List Char)
deriving DecidableEq, Repr

/-- The element's text (`get_text`), also standing for `str(element)`. -/
def nodeText : Node → List Char
  | .heading _ _ t => t
  | .content _ t => t

/-- The element's `id` attribute. -/
def nodeId : Node → Option (List Char)
  | .heading _ i _ => i
  | .content i _ => i

/-- A node selected by `soup.select("h1[id],h2[id],h3[id]")` that also passes
the loop's own check `if not anchor or name not in {"h1","h2","h3"}: continue`
(an empty id string is falsy and is skipped). -/
def isHeader : Node → Bool
  | .heading l (some a) _ => (l = 1 || l = 2 || l = 3) && !a.isEmpty
  | _ => false

/-- The `break` condition of the sibling walk in `iter_sections` and
`_extract_section`: a heading element `h1`–`h6` (with or without id) whose
level is ≤ the section's level. -/
def stopsAt (secLevel : Nat) : Node → Bool
  | .heading l _ _ => 1 ≤ l && l ≤ 6 && l ≤ secLevel
  | .content _ _ => false

/-- `"".join(parts)` over the stringified collected siblings. -/
def innerHtml (ns : List Node) : List Char :=
  (ns.map nodeText).flatten

/-- One `(anchor, title, level, inner_html)` tuple yielded by
`indexer.iter_sections`. -/
structure Sec where
  anchor : Option (List Char)
  title : List Char
  level : Nat
  body : List Char
deriving DecidableEq, Repr

end Docs

namespace Indexer

open PyStr Docs

/-- The per-header part of `indexer.iter_sections`: for each id-carrying
`h1`–`h3`, collect the following siblings up to the next heading of level
≤ its own into the section body. -/
def sectionsOf : List Node → List Sec
  | [] => []
  | n :: ns =>
    match n with
    | .heading l (some a) t =>
      if (l = 1 || l = 2 || l = 3) && !a.isEmpty then
        ⟨some a, t, l, innerHtml (ns.takeWhile (fun m => !stopsAt l m))⟩ :: sectionsOf ns
      else sectionsOf ns
    | _ => sectionsOf ns

/-- `indexer.iter_sections(soup)`: yield one section per id-carrying
`h1`/`h2`/`h3`; if no such heading exists, yield a single whole-page section
with `anchor=None`, `title=""`, `level=0`. -/
def iter_sections (doc : List Node) : List Sec :=
  if doc.filter isHeader = [] then [⟨none, [], 0, innerHtml doc⟩]
  else sectionsOf doc

end Indexer

namespace Server

open PyStr Docs

/-- `mcp.MAX_SECTION`. -/
def MAX_SECTION : Nat := 4000

/-- `mcp._SNIP_MAX`. -/
def SNIP_MAX : Nat := 420

/-- `soup.find(id=anchor)` (the `select_one("h1#…,h2#…,h3#…")` fallback can
only re-find the same element): the first element with `id = anchor`,
together with the elements following it in document order
(`target.find_all_next()`). -/
def findTarget : List Node → List Char → Option (Node × List Node)
  | [], _ => none
  | n :: ns, a => if nodeId n = some a then some (n, ns) else findTarget ns a

/-- The section level used by `_extract_section`: the target's own heading
level when the target is an `h<digits>` element, otherwise the default 2. -/
def targetLevel : Node → Nat
  | .heading l _ _ => l
  | .content _ _ => 2

/-- `"\n".join(filter(None, out))`. -/
def joinNlNonempty (outs : List (List Char)) : List Char :=
  joinNl (outs.filter (fun s => !s.isEmpty))

/-- `mcp._extract_section(html, anchor)` before the final truncation: the
target's text followed by the text of every following element up to the next
heading of level ≤ the target's level, newline-joined with empty pieces
dropped; empty when the anchor is not found. -/
def extractFull (doc : List Node) (anchor : List Char) : List Char :=
  match findTarget doc anchor with
  | none => []
  | some (t, rest) =>
    joinNlNonempty (nodeText t ::
      (rest.takeWhile (fun n => !stopsAt (targetLevel t) n)).map nodeText)

/-- `mcp._extract_section(html, anchor)`: the section text, truncated to
`MAX_SECTION` characters (`text[:MAX_SECTION]`). -/
def extract_section (doc : List Node) (anchor : List Char) : List Char :=
  (extractFull doc anchor).take MAX_SECTION

/-- The `truncated` flag computed by the `pydantic_section` tool `t_section`
(`truncated=len(section) >= MAX_SECTION`). -/
def sectionTruncated (doc : List Node) (anchor : List Char) : Bool :=
  MAX_SECTION ≤ (extract_section doc anchor).length

/-- Path model: an absolute filesystem path is its list of name segments;
symlinks are not modelled.  `normSegs` is `pathlib.Path.resolve()` on the
segments: empty and `.` segments vanish, `..` pops the previous segment. -/
def normSegs (segs : List (List Char)) : List (List Char) :=
  segs.foldl
    (fun acc seg =>
      if seg = [] ∨ seg = ['.'] then acc
      else if seg = ['.', '.'] then acc.dropLast
      else acc ++ [seg]) []

/-- Split a path string on `/`. -/
def splitSlash (l : List Char) : List (List Char) := splitChar '/' l

/-- Python `rel.replace("..", "")`: delete the non-overlapping occurrences of
`".."`, leftmost first. -/
def stripDotDot : List Char → List Char
  | '.' :: '.' :: rest => stripDotDot rest
  | c :: rest => c :: stripDotDot rest
  | [] => []

/-- Python `rel.lstrip("/")`. -/
def lstripSlash (l : List Char) : List Char := l.dropWhile (fun c => c = '/')

/-- `(root / rel).resolve()`: `pathlib`'s `/` lets an absolute right operand
replace the root entirely; then resolve.  `root` is given already resolved
(its segments contain no `""`, `"."` or `".."`). -/
def resolveUnder (root : List (List Char)) (rel : List Char) : List (List Char) :=
  if rel.head? = some '/' then normSegs (splitSlash rel)
  else normSegs (root ++ splitSlash rel)

/-- `mcp._is_within(root, path)`:
`path.resolve().relative_to(root.resolve())` succeeds exactly when the
resolved root's segments are a prefix of the resolved path's segments. -/
def isWithin (root : List (List Char)) (p : List (List Char)) : Bool :=
  root.isPrefixOf p

/-- `mcp._read_page(root, rel)`: re-sanitize `rel`
(`rel.lstrip("/").replace("..", "")`), resolve it under `root`, and raise
`FileNotFoundError` unless the resolved path is an existing file lying within
the root; only then is the file read.  The filesystem is abstracted by the
predicate `isFile` and the content map `content`; the raised error is
`Except.error ()`. -/
def read_page (isFile : List (List Char) → Bool)
    (content : List (List Char) → List Char)
    (root : List (List Char)) (rel : List Char) : Except Unit (List Char) :=
  let rel2 := stripDotDot (lstripSlash rel)
  let path := resolveUnder root rel2
  if isFile path ∧ isWithin root path then .ok (content path) else .error ()

/-- `mcp._clean_snippet(s)`: the three regex substitutions that delete fenced
blocks, markdown table rows and line-number bursts are abstracted by an
arbitrary text transformation `pre` (the proved bounds hold for every such
transformation); afterwards `|` and the backtick are replaced by spaces,
whitespace runs are collapsed, the ends are stripped, and the result is cut
to `_SNIP_MAX` characters (`s[:_SNIP_MAX]`). -/
def clean_snippet (pre : List Char → List Char) (s : List Char) : List Char :=
  (pyStrip (collapseWs (((pre s).map (fun c => if c = '|' then ' ' else c)).map
    (fun c => if c = '`' then ' ' else c)))).take SNIP_MAX

end Server


namespace Utils

open PyStr

/-- Lines of a text: Python `text.split("\n")`. -/
def splitNl (l : List Char) : List (List Char) := splitChar '\n' l

/-- A line matched by `re.sub(r"^\s*[#]+\s*$", "", …, flags=re.MULTILINE)`:
nothing but whitespace around a non-empty contiguous run of `#`.
The three multiline artifact substitutions are modelled line-locally:
within a line, `^\s*X\s*$` matches exactly the lines of this shape. -/
def isHashLine (l : List Char) : Bool :=
  !(pyStrip l).isEmpty && (pyStrip l).all (fun c => c = '#')

/-- A line matched by `^\s*[-*_]+\s*$` (empty divider). -/
def isDividerLine (l : List Char) : Bool :=
  !(pyStrip l).isEmpty && (pyStrip l).all (fun c => c = '-' || c = '*' || c = '_')

/-- A line matched by `^\s*>\s*$` (empty quote). -/
def isQuoteLine (l : List Char) : Bool :=
  pyStrip l = ['>']

/-- One multiline substitution `re.sub(pattern, "", text, flags=re.MULTILINE)`
for a line-shaped pattern: matched lines become empty, the line structure is
kept. -/
def subLines (p : List Char → Bool) (t : List Char) : List Char :=
  joinNl ((splitNl t).map (fun ln => if p ln then [] else ln))

/-- The whitespace run consumed by a greedy match of `\n\s*\n\s*\n+` starting
here: the maximal whitespace run, cut back to its last newline. -/
def wsRunCore (l : List Char) : List Char :=
  ((l.takeWhile pyIsSpace).reverse.dropWhile (fun c => c ≠ '\n')).reverse

/-- `re.sub(r"\n\s*\n\s*\n+", "\n\n", text)`: a greedy match starts at a
newline, consumes the maximal whitespace run up to its last newline, and
requires at least three newlines inside; scanning resumes after the match. -/
def collapseNl3 : List Char → List Char
  | [] => []
  | c :: rest =>
    if h : c = '\n' ∧ 3 ≤ ((wsRunCore (c :: rest)).count '\n') then
      '\n' :: '\n' :: collapseNl3 ((c :: rest).drop (wsRunCore (c :: rest)).length)
    else c :: collapseNl3 rest
termination_by l => l.length
decreasing_by
  · have hne : 1 ≤ (wsRunCore (c :: rest)).length := by
      have := List.count_le_length ('\n') (wsRunCore (c :: rest))
      omega
    simp only [List.length_drop, List.length_cons]
    omega
  · simp [Nat.lt_succ_self]

/-- `re.sub(r"\n{2,}", "\n\n", text)`: collapse every run of two or more
newlines to exactly two. -/
def collapseNl2 : List Char → List Char
  | [] => []
  | c :: rest =>
    if h : c = '\n' ∧ rest.head? = some '\n' then
      '\n' :: '\n' :: collapseNl2 (rest.dropWhile (fun d => d = '\n'))
    else c :: collapseNl2 rest
termination_by l => l.length
decreasing_by
  · have hle : ∀ (m : List Char), (m.dropWhile (fun d => d = '\n')).length ≤ m.length := by
      intro m
      induction m with
      | nil => simp
      | cons a as ih =>
        by_cases ha : (a = '\n') <;> simp [List.dropWhile_cons, ha] <;> omega
    have := hle rest
    simp only [List.length_cons]
    omega
  · simp [Nat.lt_succ_self]

/-- The per-line cleanup of the `for line in lines:` loop:
`line.strip()` then `re.sub(r"\s+", " ", line)`. -/
def cleanLine (l : List Char) : List Char := collapseWs (pyStrip l)

/-- The keep policy `if line or (cleaned_lines and cleaned_lines[-1])`:
keep non-empty lines; keep an empty line only when something has been kept
and the last kept line is non-empty.  The flag carries exactly that state. -/
def keepLines (lastNonempty : Bool) : List (List Char) → List (List Char)
  | [] => []
  | ln :: rest =>
    if ln = [] then
      if lastNonempty then [] :: keepLines false rest else keepLines lastNonempty rest
    else ln :: keepLines true rest

/-- One pass of `text.replace("\n\n\n", "\n\n")` (non-overlapping, leftmost
first). -/
def replaceTriple : List Char → List Char
  | '\n' :: '\n' :: '\n' :: rest => '\n' :: '\n' :: replaceTriple rest
  | c :: rest => c :: replaceTriple rest
  | [] => []

/-- `"\n\n\n" in text`. -/
def hasTriple : List Char → Bool
  | '\n' :: '\n' :: '\n' :: _ => true
  | _ :: rest => hasTriple rest
  | [] => false

/-- The loop `while "\n\n\n" in text: text = text.replace("\n\n\n", "\n\n")`;
it terminates because every pass that finds a triple strictly shrinks the
text. -/
def whileTriple (l : List Char) : List Char :=
  if h : hasTriple l then whileTriple (replaceTriple l) else l
termination_by l.length
decreasing_by
  have key : ∀ m : List Char, (replaceTriple m).length ≤ m.length ∧
      (hasTriple m = true → (replaceTriple m).length < m.length) := by
    intro m
    induction m using replaceTriple.induct with
    | case1 rest ih =>
      obtain ⟨ih1, ih2⟩ := ih
      constructor
      · simp only [replaceTriple, List.length_cons]
        omega
      · intro ht
        simp only [replaceTriple, List.length_cons]
        omega
    | case2 c rest hcr ih =>
      have e1 : replaceTriple (c :: rest) = c :: replaceTriple rest := by
        rw [replaceTriple.eq_def]
        split
        · rename_i r heq
          injection heq with a1 a2
          exact (hcr r a1 a2).elim
        · rename_i c2 r2 hx heq
          injection heq with a1 a2
          subst a1
          subst a2
          rfl
        · rename_i heq
          cases heq
      have e2 : hasTriple (c :: rest) = hasTriple rest := by
        rw [hasTriple.eq_def]
        split
        · rename_i r heq
          injection heq with a1 a2
          exact (hcr r a1 a2).elim
        · rename_i c2 r2 hx heq
          injection heq with a1 a2
          subst a1
          subst a2
          rfl
        · rename_i heq
          cases heq
      rw [e1, e2]
      obtain ⟨ih1, ih2⟩ := ih
      constructor
      · simp only [List.length_cons]
        omega
      · intro ht
        have := ih2 ht
        simp only [List.length_cons]
        omega
    | case3 => simp [replaceTriple, hasTriple]
  exact (key l).2 h

/-- One step of the right fold implementing `re.sub(r"[ \t]+\n", "\n", text)`:
drop a space or tab whose successor (after deletion) is a newline. -/
def subTrailF (c : Char) (acc : List Char) : List Char :=
  if (c = ' ' || c = '\t') && acc.head? = some '\n' then acc else c :: acc

/-- `re.sub(r"[ \t]+\n", "\n", text)`: delete spaces and tabs that sit
immediately before a newline (after deletion of the ones to their right). -/
def subTrail (l : List Char) : List Char :=
  l.foldr subTrailF []

/-- `re.sub(r"\n[ \t]+", "\n", text)`: delete the run of spaces and tabs that
follows a newline. -/
def subLead : List Char → List Char
  | [] => []
  | c :: rest =>
    if c = '\n' then '\n' :: subLead (rest.dropWhile (fun d => d = ' ' || d = '\t'))
    else c :: subLead rest
termination_by l => l.length
decreasing_by
  · have hle : ∀ (m : List Char), (m.dropWhile (fun d => d = ' ' || d = '\t')).length ≤ m.length := by
      intro m
      induction m with
      | nil => simp
      | cons a as ih =>
        by_cases ha : (a = ' ' || a = '\t') = true <;> simp [List.dropWhile_cons, ha] <;> omega
    have := hle rest
    simp only [List.length_cons]
    omega
  · simp [Nat.lt_succ_self]

/-- `utils.normalize_text(text)` (identical to `normalize._normalize_text`):
strip, remove `\r` and `\x00`, blank out artifact-only lines, collapse
newline runs, strip and space-collapse each line under the keep policy,
re-collapse triples, strip, and remove space runs adjacent to newlines. -/
def normalize_text (text : List Char) : List Char :=
  if text = [] then []
  else
    let t := pyStrip text
    let t := t.filter (fun c => c ≠ '\r')
    let t := t.filter (fun c => c ≠ '\x00')
    let t := subLines isHashLine t
    let t := subLines isDividerLine t
    let t := subLines isQuoteLine t
    let t := collapseNl3 t
    let t := collapseNl2 t
    let t := joinNl (keepLines false ((splitNl t).map cleanLine))
    let t := whileTriple t
    let t := pyStrip t
    let t := subTrail t
    let t := subLead t
    t

end Utils


namespace Utils

open PyStr

/-- No two adjacent whitespace characters (shape of `collapseWs` output). -/
def noAdjWs : List Char → Bool
  | a :: b :: rest => (!(pyIsSpace a && pyIsSpace b)) && noAdjWs (b :: rest)
  | _ => true

/-- No two adjacent empty lines (shape of the keep policy's output). -/
def noAdjEmpty : List (List Char) → Bool
  | a :: b :: rest => (!(a.isEmpty && b.isEmpty)) && noAdjEmpty (b :: rest)
  | _ => true

/-- A line as produced by the per-line cleanup of `normalize_text`: fixed by
strip-and-collapse, not an artifact line, and free of the null byte. -/
def goodLine (ln : List Char) : Bool :=
  decide (cleanLine ln = ln) && !isHashLine ln && !isDividerLine ln &&
    !isQuoteLine ln && !ln.contains '\x00'

/-- The shape of every `normalize_text` output: empty, or a newline-joined
list of good lines with no leading, trailing, or adjacent empty lines. -/
def normalForm (y : List Char) : Bool :=
  y.isEmpty ||
    ((splitNl y).all goodLine && noAdjEmpty (splitNl y) &&
      decide ((splitNl y).head? ≠ some []) &&
      decide ((splitNl y).getLast? ≠ some []))

end Utils

/-! ### Supporting lemmas and claim theorems -/

namespace PyStr

theorem removeWs_nil : removeWs [] = [] := rfl

theorem removeWs_cons (c : Char) (l : List Char) :
    removeWs (c :: l) = if pyIsSpace c then removeWs l else c :: removeWs l := by
  simp only [removeWs, List.filter_cons]
  by_cases h : pyIsSpace c <;> simp [h]

theorem removeWs_nl_cons (l : List Char) : removeWs ('\n' :: l) = removeWs l := by
  rw [removeWs_cons, show pyIsSpace '\n' = true from rfl, if_pos rfl]

theorem joinParas_cons (x : List Char) (L : List (List Char)) (h : L ≠ []) :
    joinParas (x :: L) = x ++ '\n' :: '\n' :: joinParas L := by
  cases L with
  | nil => exact absurd rfl h
  | cons y ys => rfl

theorem splitParas_ne_nil (l : List Char) : splitParas l ≠ [] := by
  rw [splitParas.eq_def]
  split
  · simp
  · simp
  · rename_i c rest _
    cases h : splitParas rest <;> simp [consHead, h]

theorem splitParas_cons_eq (c : Char) (rest : List Char)
    (h : ∀ r, c = '\n' → rest = '\n' :: r → False) :
    splitParas (c :: rest) = consHead c (splitParas rest) := by
  rw [splitParas.eq_def]
  split
  · rename_i heq
    exact absurd heq (by simp)
  · rename_i r heq
    injection heq with h1 h2
    exact (h r h1 h2).elim
  · rename_i c2 r2 hx heq
    injection heq with h1 h2
    subst h1
    subst h2
    rfl

theorem joinParas_consHead (c : Char) (L : List (List Char)) (h : L ≠ []) :
    joinParas (consHead c L) = c :: joinParas L := by
  cases L with
  | nil => exact absurd rfl h
  | cons seg segs =>
    cases segs with
    | nil => rfl
    | cons s2 ss => simp [consHead, joinParas_cons]

/-- Joining the split paragraphs with the separator restores the text. -/
theorem joinParas_splitParas (l : List Char) : joinParas (splitParas l) = l := by
  induction l using splitParas.induct with
  | case1 => rfl
  | case2 rest ih =>
    show joinParas ([] :: splitParas rest) = '\n' :: '\n' :: rest
    rw [joinParas_cons _ _ (splitParas_ne_nil rest), ih]
    rfl
  | case3 c rest h ih =>
    rw [splitParas_cons_eq c rest h, joinParas_consHead c _ (splitParas_ne_nil rest), ih]

theorem removeWs_append (a b : List Char) :
    removeWs (a ++ b) = removeWs a ++ removeWs b := by
  simp [removeWs]

theorem removeWs_dropWhile (m : List Char) :
    removeWs (m.dropWhile pyIsSpace) = removeWs m := by
  induction m with
  | nil => rfl
  | cons c rest ih =>
    by_cases h : pyIsSpace c
    · rw [List.dropWhile_cons_of_pos (by simpa using h), ih, removeWs_cons, if_pos h]
    · rw [List.dropWhile_cons_of_neg (by simpa using h)]

theorem removeWs_reverse (m : List Char) :
    removeWs m.reverse = (removeWs m).reverse := by
  simp [removeWs, List.filter_reverse]

theorem removeWs_pyStrip (l : List Char) : removeWs (pyStrip l) = removeWs l := by
  unfold pyStrip
  rw [removeWs_reverse, removeWs_dropWhile, removeWs_reverse, List.reverse_reverse,
    removeWs_dropWhile]

theorem removeWs_joinParas_append (xs ys : List (List Char)) :
    removeWs (joinParas (xs ++ ys)) = removeWs (joinParas xs) ++ removeWs (joinParas ys) := by
  induction xs with
  | nil => simp [joinParas, removeWs_nil]
  | cons x xs ih =>
    rcases xs with _ | ⟨x2, xs2⟩
    · rcases ys with _ | ⟨y, ys⟩
      · simp [joinParas, removeWs_nil]
      · show removeWs (joinParas (x :: y :: ys)) = _
        rw [joinParas_cons x (y :: ys) (by simp), removeWs_append]
        simp only [removeWs_nl_cons]
        rfl
    · rw [List.cons_append,
        joinParas_cons x ((x2 :: xs2) ++ ys) (by simp),
        joinParas_cons x (x2 :: xs2) (by simp),
        removeWs_append, removeWs_append]
      simp only [removeWs_nl_cons]
      rw [ih, List.append_assoc]

/-- Dropping the chunks that are empty does not change the
whitespace-erased content of the rejoined text. -/
theorem removeWs_joinParas_filter (l : List (List Char)) :
    removeWs (joinParas (l.filter (fun s => !s.isEmpty))) = removeWs (joinParas l) := by
  induction l with
  | nil => rfl
  | cons x xs ih =>
    have hx : x :: xs = [x] ++ xs := rfl
    by_cases h : x.isEmpty
    · have hxnil : x = [] := by cases x <;> simp_all
      subst hxnil
      rw [List.filter_cons, if_neg (by simp), hx, removeWs_joinParas_append, ih]
      simp [joinParas, removeWs_nil]
    · rw [List.filter_cons, if_pos (by simpa using h), hx, removeWs_joinParas_append,
        show x :: List.filter (fun s => !s.isEmpty) xs
          = [x] ++ List.filter (fun s => !s.isEmpty) xs from rfl,
        removeWs_joinParas_append, ih]

end PyStr

namespace Indexer

open PyStr

theorem chunkLoop_nil (tokLen : List Char → Nat) (maxTok : Nat)
    (acc : List (List Char)) (count : Nat) :
    chunkLoop tokLen maxTok [] acc count =
      if acc = [] then [] else [pyStrip (joinParas acc)] := rfl

theorem chunkLoop_cons (tokLen : List Char → Nat) (maxTok : Nat)
    (p : List Char) (ps acc : List (List Char)) (count : Nat) :
    chunkLoop tokLen maxTok (p :: ps) acc count =
      if acc ≠ [] ∧ maxTok < count + tokLen p then
        pyStrip (joinParas acc) :: chunkLoop tokLen maxTok ps [p] (tokLen p)
      else
        chunkLoop tokLen maxTok ps (acc ++ [p]) (count + tokLen p) := rfl

theorem chunkLoop_ne_nil (tokLen : List Char → Nat) (maxTok : Nat)
    (ps : List (List Char)) :
    ∀ acc count, acc ≠ [] → chunkLoop tokLen maxTok ps acc count ≠ [] := by
  induction ps with
  | nil =>
    intro acc count hacc
    rw [chunkLoop_nil, if_neg hacc]
    simp
  | cons p ps ih =>
    intro acc count hacc
    rw [chunkLoop_cons]
    by_cases h : acc ≠ [] ∧ maxTok < count + tokLen p
    · rw [if_pos h]
      simp
    · rw [if_neg h]
      exact ih (acc ++ [p]) (count + tokLen p) (by simp)

/-- Coverage invariant of the loop: up to whitespace, the emitted chunks
joined with paragraph breaks carry exactly the content of the pending
accumulator followed by the remaining paragraphs. -/
theorem chunkLoop_coverage (tokLen : List Char → Nat) (maxTok : Nat)
    (ps : List (List Char)) :
    ∀ acc count,
      removeWs (joinParas (chunkLoop tokLen maxTok ps acc count)) =
        removeWs (joinParas (acc ++ ps)) := by
  induction ps with
  | nil =>
    intro acc count
    by_cases hacc : acc = []
    · rw [chunkLoop_nil, if_pos hacc, hacc]
      rfl
    · rw [chunkLoop_nil, if_neg hacc, List.append_nil]
      show removeWs (pyStrip (joinParas acc)) = _
      rw [removeWs_pyStrip]
  | cons p ps ih =>
    intro acc count
    rw [chunkLoop_cons]
    by_cases h : acc ≠ [] ∧ maxTok < count + tokLen p
    · rw [if_pos h,
        joinParas_cons _ _ (chunkLoop_ne_nil tokLen maxTok ps [p] (tokLen p) (by simp)),
        removeWs_append]
      simp only [removeWs_nl_cons]
      rw [removeWs_pyStrip, ih [p] (tokLen p),
        show acc ++ p :: ps = acc ++ ([p] ++ ps) from rfl,
        removeWs_joinParas_append acc ([p] ++ ps)]
    · rw [if_neg h, ih (acc ++ [p]) (count + tokLen p), List.append_assoc]
      rfl

/-- Budget invariant of the loop: every emitted chunk is the stripped
paragraph-join of a consecutive, non-empty run of the full paragraph
list, and that run is a single paragraph unless the sum of its
paragraphs' token counts fits the budget. -/
theorem chunkLoop_runs (tokLen : List Char → Nat) (maxTok : Nat)
    (full : List (List Char)) (ps : List (List Char)) :
    ∀ acc count, count = (acc.map tokLen).sum →
      (acc = [] ∨ acc.length = 1 ∨ count ≤ maxTok) →
      (∃ u, full = u ++ acc ++ ps) →
      ∀ c ∈ chunkLoop tokLen maxTok ps acc count,
        ∃ run : List (List Char), run ≠ [] ∧
          (∃ u v, full = u ++ run ++ v) ∧
          c = pyStrip (joinParas run) ∧
          (run.length = 1 ∨ (run.map tokLen).sum ≤ maxTok) := by
  induction ps with
  | nil =>
    intro acc count hcount hbudget hsuffix c hc
    by_cases hacc : acc = []
    · rw [chunkLoop_nil, if_pos hacc] at hc
      exact absurd hc (List.not_mem_nil c)
    · rw [chunkLoop_nil, if_neg hacc] at hc
      obtain ⟨u, hu⟩ := hsuffix
      refine ⟨acc, hacc, ⟨u, [], by simpa using hu⟩, List.mem_singleton.mp hc, ?_⟩
      rcases hbudget with h0 | h1 | h2
      · exact absurd h0 hacc
      · exact Or.inl h1
      · exact Or.inr (hcount ▸ h2)
  | cons p ps ih =>
    intro acc count hcount hbudget hsuffix c hc
    obtain ⟨u, hu⟩ := hsuffix
    rw [chunkLoop_cons] at hc
    by_cases h : acc ≠ [] ∧ maxTok < count + tokLen p
    · rw [if_pos h] at hc
      rcases List.mem_cons.mp hc with hc | hc
      · refine ⟨acc, h.1, ⟨u, p :: ps, hu⟩, hc, ?_⟩
        rcases hbudget with h0 | h1 | h2
        · exact absurd h0 h.1
        · exact Or.inl h1
        · exact Or.inr (hcount ▸ h2)
      · refine ih [p] (tokLen p) (by simp) (Or.inr (Or.inl rfl)) ⟨u ++ acc, ?_⟩ c hc
        rw [hu]
        simp [List.append_assoc]
    · rw [if_neg h] at hc
      refine ih (acc ++ [p]) (count + tokLen p) (by simp [hcount]) ?_ ⟨u, ?_⟩ c hc
      · by_cases hacc : acc = []
        · subst hacc
          exact Or.inr (Or.inl rfl)
        · push_neg at h
          exact Or.inr (Or.inr (h hacc))
      · rw [hu]
        simp [List.append_assoc]

end Indexer

namespace Indexer

open PyStr

/-- C1: the claim states that every chunk emitted by `chunk_markdown` has
token count at most `maxTokens` unless it is a single oversized paragraph.
This fails: the loop bounds the running sum of the paragraphs' own token
counts, but the emitted chunk re-joins the paragraphs with `"\n\n"`
separators whose tokens were never counted.  With the token counter
instantiated to character count, the input `"ab\n\nab\n\nab"` under budget 5
emits the two-paragraph chunk `"ab\n\nab"` of token count 6 > 5, which is
not any single paragraph of the input. -/
theorem c1_chunk_budget_counterexample :
    ¬ (∀ c ∈ chunk_markdown (fun l => l.length) "ab\n\nab\n\nab".data 5,
        (fun l : List Char => l.length) c ≤ 5 ∨
          ∃ p ∈ splitParas "ab\n\nab\n\nab".data,
            c = pyStrip p ∧ 5 < (fun l : List Char => l.length) p) := by
  decide

/-- C1 (amended): when the whole body fits the budget it is returned whole;
otherwise every emitted chunk is the stripped `"\n\n"`-join of a consecutive
non-empty run of the body's paragraphs, and that run is a single paragraph
unless the sum of the token counts of its paragraphs is at most `maxTokens`
(the budget bounds that sum, not the token count of the joined chunk text:
the separators are not counted).  An oversized single paragraph is emitted
whole as its own chunk, never subdivided. -/
theorem c1_chunk_budget_amended (tokLen : List Char → Nat) (text : List Char)
    (maxTok : Nat) :
    (tokLen text ≤ maxTok → chunk_markdown tokLen text maxTok = [pyStrip text]) ∧
    (maxTok < tokLen text →
      ∀ c ∈ chunk_markdown tokLen text maxTok,
        ∃ run : List (List Char), run ≠ [] ∧
          (∃ u v, splitParas text = u ++ run ++ v) ∧
          c = pyStrip (joinParas run) ∧
          (run.length = 1 ∨ (run.map tokLen).sum ≤ maxTok)) := by
  constructor
  · intro h
    unfold chunk_markdown
    rw [if_pos h]
  · intro h c hc
    unfold chunk_markdown at hc
    rw [if_neg (Nat.not_le.mpr h)] at hc
    exact chunkLoop_runs tokLen maxTok (splitParas text) (splitParas text) [] 0
      (by simp) (Or.inl rfl) ⟨[], by simp⟩ c (List.mem_of_mem_filter hc)

theorem c1_chunk_budget_amended_witness :
    (5 < "ab\n\nab\n\nab".data.length) ∧
    (∀ c ∈ chunk_markdown (fun l => l.length) "ab\n\nab\n\nab".data 5,
      ∃ run : List (List Char), run ≠ [] ∧
        (∃ u v, splitParas "ab\n\nab\n\nab".data = u ++ run ++ v) ∧
        c = pyStrip (joinParas run) ∧
        (run.length = 1 ∨ (run.map (fun l => l.length)).sum ≤ 5)) :=
  ⟨by decide,
    (c1_chunk_budget_amended (fun l => l.length) "ab\n\nab\n\nab".data 5).2 (by decide)⟩

/-- C2: the claim states every string returned by `chunk_markdown` is
non-empty, including for whitespace-only or empty section bodies.  It fails
exactly there: a whitespace-only body fits the budget, so the first branch
returns `[text.strip()] = [""]` without the empty-chunk filter, and
`process_file` turns that into a record with empty `md_text`. -/
theorem c2_chunk_nonempty_counterexample :
    ¬ (∀ c ∈ chunk_markdown (fun l => l.length) " ".data MAX_TOK, c ≠ []) := by
  decide

/-- C2 (amended): every string returned by `chunk_markdown` is non-empty
provided the section body does not strip to the empty string; for a body
that is empty or whitespace-only (and within budget) the single returned
chunk is the empty string. -/
theorem c2_chunk_nonempty_amended (tokLen : List Char → Nat) (text : List Char)
    (maxTok : Nat) (h : pyStrip text ≠ []) :
    ∀ c ∈ chunk_markdown tokLen text maxTok, c ≠ [] := by
  intro c hc
  unfold chunk_markdown at hc
  by_cases hfit : tokLen text ≤ maxTok
  · rw [if_pos hfit] at hc
    rwa [List.mem_singleton.mp hc]
  · rw [if_neg hfit] at hc
    have := List.of_mem_filter hc
    simpa using this

theorem c2_chunk_nonempty_amended_witness :
    (pyStrip "hi".data ≠ []) ∧
    (∀ c ∈ chunk_markdown (fun l => l.length) "hi".data MAX_TOK, c ≠ []) :=
  ⟨by decide, c2_chunk_nonempty_amended (fun l => l.length) "hi".data MAX_TOK (by decide)⟩

/-- C5: re-joining the chunks of `chunk_markdown` with `"\n\n"` paragraph
breaks reconstructs the section body up to whitespace normalization (the two
texts agree after erasing all whitespace): no paragraph content is dropped
and order is preserved. -/
theorem c5_chunk_coverage (tokLen : List Char → Nat) (text : List Char)
    (maxTok : Nat) :
    removeWs (joinParas (chunk_markdown tokLen text maxTok)) = removeWs text := by
  unfold chunk_markdown
  by_cases h : tokLen text ≤ maxTok
  · rw [if_pos h]
    show removeWs (pyStrip text) = _
    exact removeWs_pyStrip text
  · rw [if_neg h, removeWs_joinParas_filter, chunkLoop_coverage, List.nil_append,
      joinParas_splitParas]

/-- C6: the claim states that when the subword tokenizer is unavailable the
chunking pipeline degrades to an approximate estimator instead of failing,
for every input text.  The indexer's path does not: with no encoder loaded
(`_ENC is None`) the very first `tok_len` call raises `RuntimeError`, so
`chunk_markdown` fails rather than producing chunks. -/
theorem c6_missing_tokenizer_counterexample :
    chunk_markdownE none "hello".data MAX_TOK = Except.error () := rfl

end Indexer

namespace Server

open PyStr

/-- C3: the tokenizer defined inside `indexer.build_index` and the server's
`mcp._tokenize` compute the same token list for every input string —
lower-cased, every character outside `[a-z0-9_#\-\s]` replaced by a space,
split on whitespace — and every produced token has length > 1. -/
theorem c3_tokenizer_consistency (s : List Char) :
    Indexer.tokenize s = Server.tokenize s ∧
      ∀ t ∈ Server.tokenize s, 1 < t.length := by
  refine ⟨rfl, fun t ht => ?_⟩
  have := List.of_mem_filter ht
  simpa using this

end Server

namespace SourceExtractor

open PyStr

theorem sliceChunks_cons_eq (w : Nat) (hw : w ≠ 0) (l : List Char) (hl : l ≠ []) :
    sliceChunks w l = l.take w :: sliceChunks w (l.drop w) := by
  rw [sliceChunks.eq_def]
  rw [dif_neg hw, dif_neg hl]

theorem sliceChunks_nil_right (w : Nat) : sliceChunks w [] = [] := by
  rw [sliceChunks.eq_def]
  by_cases hw : w = 0
  · rw [dif_pos hw]
  · rw [dif_neg hw, dif_pos rfl]

/-- The fallback slicing covers the whole text with non-empty chunks of at
most `w` characters. -/
theorem sliceChunks_spec (w : Nat) (hw : 0 < w) :
    ∀ n (l : List Char), l.length ≤ n →
      (sliceChunks w l).flatten = l ∧
      (∀ c ∈ sliceChunks w l, c ≠ [] ∧ c.length ≤ w) := by
  intro n
  induction n with
  | zero =>
    intro l hl
    have hl0 : l = [] := List.eq_nil_of_length_eq_zero (Nat.le_zero.mp hl)
    subst hl0
    rw [sliceChunks_nil_right]
    simp
  | succ n ih =>
    intro l hl
    by_cases hnil : l = []
    · subst hnil
      rw [sliceChunks_nil_right]
      simp
    · rw [sliceChunks_cons_eq w (Nat.pos_iff_ne_zero.mp hw) l hnil]
      have hdrop : (l.drop w).length ≤ n := by
        have h1 : 0 < l.length := List.length_pos.mpr hnil
        simp only [List.length_drop]
        omega
      obtain ⟨ihflat, ihmem⟩ := ih (l.drop w) hdrop
      refine ⟨?_, ?_⟩
      · simp only [List.flatten_cons, ihflat, List.take_append_drop]
      · intro c hc
        rcases List.mem_cons.mp hc with hc | hc
        · subst hc
          constructor
          · simp only [ne_eq, List.take_eq_nil_iff]
            push_neg
            exact ⟨Nat.pos_iff_ne_zero.mp hw, hnil⟩
          · simp [List.length_take]
        · exact ihmem c hc

/-- C6 (amended): the graceful degradation holds only for the
source-extractor pipeline: when the tiktoken encoding cannot be loaded,
`source_extractor.chunk_text` falls back to character slicing
(`max_tokens * 4` characters per chunk, the chars-per-token ≈ 4 estimate),
producing, for every non-empty text and positive budget, a non-empty list of
non-empty chunks of at most `max_tokens * 4` characters whose concatenation
is the whole text — no exception escapes.  The indexer's `chunk_markdown`,
by contrast, raises (see the C6 counterexample). -/
theorem c6_fallback_amended (text : List Char) (maxTokens : Nat)
    (hm : 0 < maxTokens) (ht : text ≠ []) :
    chunk_text none text maxTokens ≠ [] ∧
    (∀ c ∈ chunk_text none text maxTokens, c ≠ [] ∧ c.length ≤ maxTokens * 4) ∧
    (chunk_text none text maxTokens).flatten = text := by
  have hw : 0 < maxTokens * 4 := by omega
  have hspec := sliceChunks_spec (maxTokens * 4) hw text.length text (Nat.le_refl _)
  have hct : chunk_text none text maxTokens = sliceChunks (maxTokens * 4) text := by
    unfold chunk_text
    rw [if_neg ht]
  refine ⟨?_, ?_, ?_⟩
  · rw [hct, sliceChunks_cons_eq (maxTokens * 4) (Nat.pos_iff_ne_zero.mp hw) text ht]
    simp
  · rw [hct]
    exact hspec.2
  · rw [hct]
    exact hspec.1

theorem c6_fallback_amended_witness :
    (0 < 1200) ∧ ("hello".data ≠ []) ∧
    (chunk_text none "hello".data 1200 ≠ [] ∧
      (∀ c ∈ chunk_text none "hello".data 1200, c ≠ [] ∧ c.length ≤ 1200 * 4) ∧
      (chunk_text none "hello".data 1200).flatten = "hello".data) :=
  ⟨by decide, by decide, c6_fallback_amended "hello".data 1200 (by decide) (by decide)⟩

end SourceExtractor

namespace Indexer

open PyStr Docs

theorem filter_isHeader_ne_nil (doc : List Node) (n : Node) (hn : n ∈ doc)
    (h : isHeader n = true) : doc.filter isHeader ≠ [] := by
  intro he
  have hmem := List.mem_filter.mpr ⟨hn, h⟩
  rw [he] at hmem
  exact absurd hmem (List.not_mem_nil n)


theorem sectionsOf_cons_content (ix : Option (List Char)) (tx : List Char)
    (ns : List Node) :
    sectionsOf (Node.content ix tx :: ns) = sectionsOf ns := rfl

theorem sectionsOf_cons_noid (lx : Nat) (tx : List Char) (ns : List Node) :
    sectionsOf (Node.heading lx none tx :: ns) = sectionsOf ns := rfl

theorem sectionsOf_cons_id (lx : Nat) (ax tx : List Char) (ns : List Node) :
    sectionsOf (Node.heading lx (some ax) tx :: ns) =
      if ((lx = 1 || lx = 2 || lx = 3) && !ax.isEmpty) = true then
        Sec.mk (some ax) tx lx (innerHtml (ns.takeWhile (fun m => !stopsAt lx m))) ::
          sectionsOf ns
      else sectionsOf ns := by
  rw [sectionsOf]

theorem sectionsOf_append_header (xs : List Node) (l : Nat) (a t : List Char)
    (rest : List Node) (hguard : ((l = 1 || l = 2 || l = 3) && !a.isEmpty) = true) :
    Sec.mk (some a) t l (innerHtml (rest.takeWhile (fun m => !stopsAt l m))) ∈
      sectionsOf (xs ++ Node.heading l (some a) t :: rest) := by
  induction xs with
  | nil =>
    show _ ∈ sectionsOf (Node.heading l (some a) t :: rest)
    rw [sectionsOf_cons_id, if_pos hguard]
    exact List.mem_cons_self _ _
  | cons x xs ih =>
    show _ ∈ sectionsOf (x :: (xs ++ Node.heading l (some a) t :: rest))
    match x with
    | .heading lx (some ax) tx =>
      rw [sectionsOf_cons_id]
      by_cases hg : ((lx = 1 || lx = 2 || lx = 3) && !ax.isEmpty) = true
      · rw [if_pos hg]
        exact List.mem_cons_of_mem _ ih
      · rw [if_neg hg]
        exact ih
    | .heading lx none tx =>
      rw [sectionsOf_cons_noid]
      exact ih
    | .content ix tx =>
      rw [sectionsOf_cons_content]
      exact ih

theorem sectionsOf_anchor_sound (doc : List Node) :
    ∀ sec ∈ sectionsOf doc,
      ∃ lvl id tt, Node.heading lvl (some id) tt ∈ doc ∧
        sec.anchor = some id ∧ id ≠ [] ∧ (lvl = 1 ∨ lvl = 2 ∨ lvl = 3) := by
  induction doc with
  | nil =>
    intro sec hsec
    simp [sectionsOf] at hsec
  | cons n ns ih =>
    intro sec hsec
    match n with
    | .heading lx (some ax) tx =>
      rw [sectionsOf_cons_id] at hsec
      by_cases hg : ((lx = 1 || lx = 2 || lx = 3) && !ax.isEmpty) = true
      · rw [if_pos hg] at hsec
        rcases List.mem_cons.mp hsec with hsec | hsec
        · refine ⟨lx, ax, tx, List.mem_cons_self _ _, ?_, ?_, ?_⟩
          · rw [hsec]
          · have hne := (Bool.and_eq_true _ _).mp hg |>.2
            intro hx
            subst hx
            simp at hne
          · have hlv := (Bool.and_eq_true _ _).mp hg |>.1
            rcases Bool.or_eq_true _ _ |>.mp hlv with hlv | hlv
            · rcases Bool.or_eq_true _ _ |>.mp hlv with hlv | hlv
              · exact Or.inl (by simpa using hlv)
              · exact Or.inr (Or.inl (by simpa using hlv))
            · exact Or.inr (Or.inr (by simpa using hlv))
        · obtain ⟨lvl, id, tt, hmem, hrest⟩ := ih sec hsec
          exact ⟨lvl, id, tt, List.mem_cons_of_mem _ hmem, hrest⟩
      · rw [if_neg hg] at hsec
        obtain ⟨lvl, id, tt, hmem, hrest⟩ := ih sec hsec
        exact ⟨lvl, id, tt, List.mem_cons_of_mem _ hmem, hrest⟩
    | .heading lx none tx =>
      rw [sectionsOf_cons_noid] at hsec
      obtain ⟨lvl, id, tt, hmem, hrest⟩ := ih sec hsec
      exact ⟨lvl, id, tt, List.mem_cons_of_mem _ hmem, hrest⟩
    | .content ix tx =>
      rw [sectionsOf_cons_content] at hsec
      obtain ⟨lvl, id, tt, hmem, hrest⟩ := ih sec hsec
      exact ⟨lvl, id, tt, List.mem_cons_of_mem _ hmem, hrest⟩

theorem takeWhile_append_of_all {α : Type} (p : α → Bool) (xs ys : List α)
    (h : ∀ x ∈ xs, p x = true) :
    (xs ++ ys).takeWhile p = xs ++ ys.takeWhile p := by
  induction xs with
  | nil => simp
  | cons x xs ih =>
    rw [List.cons_append, List.takeWhile_cons, if_pos (h x (List.mem_cons_self _ _)),
      ih (fun y hy => h y (List.mem_cons_of_mem _ hy)), List.cons_append]

end Indexer

namespace Indexer

open PyStr Docs

/-- C4: the claim states that a heading without a stable identifier is not a
split point and that content following it still belongs to the body of the
current open section, for headings of any level.  The first half holds, the
second fails: the sibling walk breaks at any `h1`–`h6` of level ≤ the
section's level, id or not.  In `[h2#a "A", <p>"x", h2 (no id) "B", <p>"y"]`
the only section is `a` with body `"x"`: the content `"y"` after the
anchorless same-level heading is in no section at all. -/
theorem c4_anchorless_heading_counterexample :
    iter_sections
        [Node.heading 2 (some "a".data) "A".data, Node.content none "x".data,
          Node.heading 2 none "B".data, Node.content none "y".data] =
      [Sec.mk (some "a".data) "A".data 2 "x".data] ∧
    ∀ sec ∈ iter_sections
        [Node.heading 2 (some "a".data) "A".data, Node.content none "x".data,
          Node.heading 2 none "B".data, Node.content none "y".data],
      'y' ∉ sec.body := by
  decide

/-- C4 (amended): a heading lacking an identifier is never a split point —
every emitted section's anchor is the non-empty id of an id-carrying
`h1`–`h3` of the document — but the content following an anchorless heading
stays in the current open section only when the anchorless heading's level
exceeds the section's level; an anchorless heading at level ≤ the section's
level still terminates the section's body, so the content after it is
excluded from that section. -/
theorem c4_anchorless_heading_amended
    (pre mid post : List Node) (l l2 : Nat) (a t t2 : List Char)
    (hl : l = 1 ∨ l = 2 ∨ l = 3) (ha : a ≠ [])
    (hmid : ∀ n ∈ mid, stopsAt l n = false)
    (hl2 : 1 ≤ l2 ∧ l2 ≤ 6) :
    (∀ sec ∈ iter_sections
        (pre ++ Node.heading l (some a) t :: mid ++ Node.heading l2 none t2 :: post),
      sec.anchor ≠ none →
        ∃ lvl id tt, Node.heading lvl (some id) tt ∈
            (pre ++ Node.heading l (some a) t :: mid ++ Node.heading l2 none t2 :: post) ∧
          sec.anchor = some id ∧ id ≠ [] ∧ (lvl = 1 ∨ lvl = 2 ∨ lvl = 3)) ∧
    (l2 ≤ l →
      Sec.mk (some a) t l (innerHtml mid) ∈ iter_sections
        (pre ++ Node.heading l (some a) t :: mid ++ Node.heading l2 none t2 :: post)) ∧
    (l < l2 →
      Sec.mk (some a) t l
          (innerHtml (mid ++ Node.heading l2 none t2 ::
            post.takeWhile (fun m => !stopsAt l m))) ∈ iter_sections
        (pre ++ Node.heading l (some a) t :: mid ++ Node.heading l2 none t2 :: post)) := by
  have hguard : ((l = 1 || l = 2 || l = 3) && !a.isEmpty) = true := by
    rcases hl with h | h | h <;> subst h <;> cases a <;> simp_all
  have hmemhdr : Node.heading l (some a) t ∈
      (pre ++ Node.heading l (some a) t :: mid ++ Node.heading l2 none t2 :: post) := by
    simp
  have hishdr : isHeader (Node.heading l (some a) t) = true := by
    simpa [isHeader] using hguard
  have hfil := filter_isHeader_ne_nil _ _ hmemhdr hishdr
  have hiter : iter_sections
      (pre ++ Node.heading l (some a) t :: mid ++ Node.heading l2 none t2 :: post) =
      sectionsOf
      (pre ++ Node.heading l (some a) t :: mid ++ Node.heading l2 none t2 :: post) := by
    unfold iter_sections
    rw [if_neg hfil]
  refine ⟨?_, ?_, ?_⟩
  · intro sec hsec hanch
    rw [hiter] at hsec
    exact sectionsOf_anchor_sound _ sec hsec
  · intro hle
    rw [hiter]
    have hstop : stopsAt l (Node.heading l2 none t2) = true := by
      simp only [stopsAt, Bool.and_eq_true, decide_eq_true_eq]
      omega
    have htw : (mid ++ Node.heading l2 none t2 :: post).takeWhile
        (fun m => !stopsAt l m) = mid := by
      rw [takeWhile_append_of_all _ mid _ (fun x hx => by simp [hmid x hx]),
        List.takeWhile_cons, if_neg (by simp [hstop])]
      simp
    have := sectionsOf_append_header pre l a t
      (mid ++ Node.heading l2 none t2 :: post) hguard
    rw [htw] at this
    simpa using this
  · intro hlt
    rw [hiter]
    have hstop : stopsAt l (Node.heading l2 none t2) = false := by
      rw [Bool.eq_false_iff]
      intro hcontra
      simp only [stopsAt, Bool.and_eq_true, decide_eq_true_eq] at hcontra
      omega
    have htw : (mid ++ Node.heading l2 none t2 :: post).takeWhile
        (fun m => !stopsAt l m) =
        mid ++ Node.heading l2 none t2 :: post.takeWhile (fun m => !stopsAt l m) := by
      rw [takeWhile_append_of_all _ mid _ (fun x hx => by simp [hmid x hx]),
        List.takeWhile_cons, if_pos (by simp [hstop])]
    have := sectionsOf_append_header pre l a t
      (mid ++ Node.heading l2 none t2 :: post) hguard
    rw [htw] at this
    simpa using this

theorem c4_anchorless_heading_amended_witness :
    ((2 : Nat) = 1 ∨ (2 : Nat) = 2 ∨ (2 : Nat) = 3) ∧ ("a".data ≠ []) ∧
    (∀ n ∈ [Node.content none "x".data], stopsAt 2 n = false) ∧
    (1 ≤ 2 ∧ 2 ≤ 6) ∧ ((2 : Nat) ≤ 2) ∧
    (Sec.mk (some "a".data) "A".data 2 (innerHtml [Node.content none "x".data]) ∈
      iter_sections
        ([] ++ Node.heading 2 (some "a".data) "A".data ::
          [Node.content none "x".data] ++
            Node.heading 2 none "B".data :: [Node.content none "y".data])) :=
  ⟨by decide, by decide, by decide, by decide, by decide,
    (c4_anchorless_heading_amended [] [Node.content none "x".data]
        [Node.content none "y".data] 2 2 "a".data "A".data "B".data
        (by decide) (by decide) (by decide) (by decide)).2.1 (by decide)⟩

end Indexer

namespace Server

open PyStr Docs

/-- C9: the claim states the `truncated` flag is true if and only if the
extracted text was actually cut.  The bound holds, but the flag is computed
as `len(section) >= MAX_SECTION` on the already-truncated text: a section of
exactly 4000 characters is returned whole (nothing cut) yet the flag is
true. -/
theorem c9_truncation_flag_counterexample :
    sectionTruncated [Node.heading 2 (some "x".data) (List.replicate 4000 'a')]
        "x".data = true ∧
    extract_section [Node.heading 2 (some "x".data) (List.replicate 4000 'a')]
        "x".data =
      extractFull [Node.heading 2 (some "x".data) (List.replicate 4000 'a')]
        "x".data := by
  have hne : List.replicate 4000 'a' ≠ [] := by
    intro h
    have h2 := congrArg List.length h
    rw [List.length_replicate, List.length_nil] at h2
    cases h2
  obtain ⟨c, cs, hrep⟩ : ∃ c cs, List.replicate 4000 'a' = c :: cs := by
    cases h : List.replicate 4000 'a' with
    | nil => exact absurd h hne
    | cons c cs => exact ⟨c, cs, rfl⟩
  have hfull : extractFull [Node.heading 2 (some "x".data) (List.replicate 4000 'a')]
      "x".data = List.replicate 4000 'a' := by
    show joinNlNonempty [List.replicate 4000 'a'] = List.replicate 4000 'a'
    rw [hrep]
    rfl
  have hsec : extract_section [Node.heading 2 (some "x".data) (List.replicate 4000 'a')]
      "x".data = List.replicate 4000 'a' := by
    unfold extract_section
    rw [hfull]
    refine List.take_of_length_le ?_
    rw [List.length_replicate]
    exact Nat.le_refl 4000
  refine ⟨?_, by rw [hsec, hfull]⟩
  unfold sectionTruncated
  rw [hsec, List.length_replicate]
  decide

/-- C9 (amended): the extracted section text is always at most `MAX_SECTION`
(4000) characters, and the `truncated` flag is true exactly when the
pre-truncation section text has length ≥ `MAX_SECTION` — i.e. when the text
was cut, or when it is exactly 4000 characters long and returned whole. -/
theorem c9_section_truncation_amended (doc : List Node) (anchor : List Char) :
    (extract_section doc anchor).length ≤ MAX_SECTION ∧
    (sectionTruncated doc anchor = true ↔
      MAX_SECTION ≤ (extractFull doc anchor).length) := by
  constructor
  · unfold extract_section
    rw [List.length_take]
    omega
  · unfold sectionTruncated extract_section
    rw [List.length_take, decide_eq_true_eq]
    omega

end Server

namespace Server

open PyStr

/-- C7: page reading never escapes the configured root.  Whenever
`_read_page` returns content instead of raising, the resolved path lies
within the root (the root's resolved segments are a prefix of the resolved
path's segments) and the content read is exactly that of the resolved
in-root path; and the traversal input `"../../etc/passwd"` is rejected with
the not-found error for every filesystem state under a representative
document root (after the sanitization `lstrip("/")` + `replace("..","")` it
resolves to `/etc/passwd`, which fails the `_is_within` check and is never
read). -/
theorem c7_read_page_stays_in_root :
    (∀ (isFile : List (List Char) → Bool) (content : List (List Char) → List Char)
        (root : List (List Char)) (rel : List Char) (c : List Char),
      read_page isFile content root rel = Except.ok c →
        isWithin root (resolveUnder root (stripDotDot (lstripSlash rel))) = true ∧
        isFile (resolveUnder root (stripDotDot (lstripSlash rel))) = true ∧
        c = content (resolveUnder root (stripDotDot (lstripSlash rel)))) ∧
    (∀ (isFile : List (List Char) → Bool) (content : List (List Char) → List Char),
      read_page isFile content ["srv".data, "docs".data] "../../etc/passwd".data =
        Except.error ()) := by
  constructor
  · intro isFile content root rel c h
    unfold read_page at h
    by_cases hcond : isFile (resolveUnder root (stripDotDot (lstripSlash rel))) = true ∧
        isWithin root (resolveUnder root (stripDotDot (lstripSlash rel))) = true
    · rw [if_pos hcond] at h
      injection h with h
      exact ⟨hcond.2, hcond.1, h.symm⟩
    · rw [if_neg hcond] at h
      cases h
  · intro isFile content
    unfold read_page
    have hW : isWithin ["srv".data, "docs".data]
        (resolveUnder ["srv".data, "docs".data]
          (stripDotDot (lstripSlash "../../etc/passwd".data))) = false := by
      decide
    rw [if_neg]
    intro hcond
    rw [hW] at hcond
    exact absurd hcond.2 (by simp)

theorem c7_read_page_stays_in_root_witness :
    read_page (fun p => decide (p = ["srv".data, "docs".data, "page.html".data]))
        (fun _ => "content".data) ["srv".data, "docs".data] "page.html".data =
      Except.ok "content".data ∧
    isWithin ["srv".data, "docs".data]
      (resolveUnder ["srv".data, "docs".data]
        (stripDotDot (lstripSlash "page.html".data))) = true :=
  ⟨by rfl,
    (c7_read_page_stays_in_root.1
      (fun p => decide (p = ["srv".data, "docs".data, "page.html".data]))
      (fun _ => "content".data) ["srv".data, "docs".data] "page.html".data
      "content".data (by rfl)).1⟩

end Server

namespace PyStr

theorem mem_of_mem_dropWhile {p : Char → Bool} {c : Char} {l : List Char}
    (h : c ∈ l.dropWhile p) : c ∈ l := by
  induction l with
  | nil => simpa using h
  | cons x xs ih =>
    rw [List.dropWhile_cons] at h
    by_cases hp : p x = true
    · rw [if_pos hp] at h
      exact List.mem_cons_of_mem _ (ih h)
    · rw [if_neg hp] at h
      exact h

theorem mem_of_mem_pyStrip {c : Char} {l : List Char} (h : c ∈ pyStrip l) : c ∈ l := by
  unfold pyStrip at h
  rw [List.mem_reverse] at h
  have h2 := mem_of_mem_dropWhile h
  rw [List.mem_reverse] at h2
  exact mem_of_mem_dropWhile h2

theorem mem_of_mem_collapseWsAux {c : Char} {b : Bool} {l : List Char}
    (h : c ∈ collapseWsAux b l) : c = ' ' ∨ c ∈ l := by
  induction l generalizing b with
  | nil => simpa [collapseWsAux] using h
  | cons x xs ih =>
    rw [collapseWsAux] at h
    by_cases hx : pyIsSpace x = true
    · rw [if_pos hx] at h
      by_cases hb : b = true
      · rw [if_pos hb] at h
        rcases ih h with h | h
        · exact Or.inl h
        · exact Or.inr (List.mem_cons_of_mem _ h)
      · rw [if_neg hb] at h
        rcases List.mem_cons.mp h with h | h
        · exact Or.inl h
        · rcases ih h with h | h
          · exact Or.inl h
          · exact Or.inr (List.mem_cons_of_mem _ h)
    · rw [if_neg hx] at h
      rcases List.mem_cons.mp h with h | h
      · exact Or.inr (h ▸ List.mem_cons_self _ _)
      · rcases ih h with h | h
        · exact Or.inl h
        · exact Or.inr (List.mem_cons_of_mem _ h)

end PyStr

namespace Server

open PyStr

/-- C8: every snippet produced by `_clean_snippet` (as attached to the hits
of `_rank_hits_bm25`) has length at most the configured maximum
`_SNIP_MAX = 420` and contains no raw pipe and no backtick (hence no code
fence), whatever text the preceding regex substitutions produce. -/
theorem c8_snippet_bound (pre : List Char → List Char) (s : List Char) :
    (clean_snippet pre s).length ≤ SNIP_MAX ∧
    '|' ∉ clean_snippet pre s ∧ '`' ∉ clean_snippet pre s := by
  have hsrc : ∀ c ∈ clean_snippet pre s, c = ' ' ∨
      c ∈ ((pre s).map (fun c => if c = '|' then ' ' else c)).map
        (fun c => if c = '`' then ' ' else c) := by
    intro c hc
    unfold clean_snippet at hc
    have h1 : c ∈ pyStrip (collapseWs (((pre s).map (fun c => if c = '|' then ' ' else c)).map
        (fun c => if c = '`' then ' ' else c))) := List.take_subset _ _ hc
    exact mem_of_mem_collapseWsAux (mem_of_mem_pyStrip h1)
  have hmapped : ∀ c ∈ ((pre s).map (fun c => if c = '|' then ' ' else c)).map
      (fun c => if c = '`' then ' ' else c), c ≠ '|' ∧ c ≠ '`' := by
    intro c hc
    rw [List.mem_map] at hc
    obtain ⟨a, ha, rfl⟩ := hc
    by_cases h2 : a = '`'
    · rw [if_pos h2]
      exact ⟨by decide, by decide⟩
    · rw [if_neg h2]
      refine ⟨?_, h2⟩
      rw [List.mem_map] at ha
      obtain ⟨b, hb, rfl⟩ := ha
      by_cases h1 : b = '|'
      · rw [if_pos h1]
        decide
      · rw [if_neg h1]
        exact h1
  refine ⟨?_, ?_, ?_⟩
  · unfold clean_snippet
    rw [List.length_take]
    omega
  · intro hmem
    rcases hsrc '|' hmem with h | h
    · cases h
    · exact absurd rfl (hmapped '|' h).1
  · intro hmem
    rcases hsrc '`' hmem with h | h
    · cases h
    · exact absurd rfl (hmapped '`' h).2

end Server

namespace PyStr

theorem splitChar_cons (sep c : Char) (rest : List Char) :
    splitChar sep (c :: rest) =
      if c = sep then [] :: splitChar sep rest
      else consHead c (splitChar sep rest) := rfl

theorem splitChar_ne_nil (sep : Char) (l : List Char) : splitChar sep l ≠ [] := by
  cases l with
  | nil => simp [splitChar]
  | cons c rest =>
    rw [splitChar_cons]
    by_cases h : c = sep
    · rw [if_pos h]
      simp
    · rw [if_neg h]
      cases hs : splitChar sep rest <;> simp [consHead, hs]

theorem consHead_append (c : Char) (X Y : List (List Char)) (hX : X ≠ []) :
    consHead c (X ++ Y) = consHead c X ++ Y := by
  cases X with
  | nil => exact absurd rfl hX
  | cons x xs => rfl

theorem splitChar_append (sep : Char) (a b : List Char) :
    splitChar sep (a ++ sep :: b) = splitChar sep a ++ splitChar sep b := by
  induction a with
  | nil =>
    rw [List.nil_append, splitChar_cons, if_pos rfl]
    rfl
  | cons c a ih =>
    rw [List.cons_append, splitChar_cons, splitChar_cons]
    by_cases h : c = sep
    · rw [if_pos h, if_pos h, ih]
      rfl
    · rw [if_neg h, if_neg h, ih, consHead_append c _ _ (splitChar_ne_nil sep a)]

theorem splitChar_of_not_mem (sep : Char) (m : List Char) (h : sep ∉ m) :
    splitChar sep m = [m] := by
  induction m with
  | nil => rfl
  | cons c rest ih =>
    rw [splitChar_cons, if_neg (fun hc => h (by rw [← hc]; exact List.mem_cons_self c rest)),
      ih (fun hm => h (List.mem_cons_of_mem c hm))]
    rfl

theorem splitChar_append_of_not_mem (sep : Char) (m r : List Char) (h : sep ∉ m) :
    splitChar sep (m ++ sep :: r) = m :: splitChar sep r := by
  rw [splitChar_append, splitChar_of_not_mem sep m h]
  rfl

theorem joinNl_cons (x : List Char) (L : List (List Char)) (h : L ≠ []) :
    joinNl (x :: L) = x ++ '\n' :: joinNl L := by
  cases L with
  | nil => exact absurd rfl h
  | cons y ys => rfl

theorem joinNl_consHead (c : Char) (L : List (List Char)) (h : L ≠ []) :
    joinNl (consHead c L) = c :: joinNl L := by
  cases L with
  | nil => exact absurd rfl h
  | cons seg segs =>
    cases segs with
    | nil => rfl
    | cons s2 ss => simp [consHead, joinNl_cons]

theorem joinNl_splitChar (l : List Char) : joinNl (splitChar '\n' l) = l := by
  induction l with
  | nil => rfl
  | cons c rest ih =>
    rw [splitChar_cons]
    by_cases h : c = '\n'
    · rw [if_pos h, joinNl_cons _ _ (splitChar_ne_nil '\n' rest), ih, h]
      rfl
    · rw [if_neg h, joinNl_consHead c _ (splitChar_ne_nil '\n' rest), ih]

theorem splitChar_joinNl (N : List (List Char)) (hN : N ≠ [])
    (h : ∀ ln ∈ N, '\n' ∉ ln) :
    splitChar '\n' (joinNl N) = N := by
  induction N with
  | nil => exact absurd rfl hN
  | cons ln rest ih =>
    cases rest with
    | nil => exact splitChar_of_not_mem '\n' ln (h ln (List.mem_cons_self _ _))
    | cons ln2 rest2 =>
      rw [joinNl_cons _ _ (by simp),
        splitChar_append_of_not_mem '\n' ln _ (h ln (List.mem_cons_self _ _)),
        ih (by simp) (fun m hm => h m (List.mem_cons_of_mem _ hm))]

theorem mem_splitChar_not_sep (sep : Char) (l : List Char) :
    ∀ ln ∈ splitChar sep l, sep ∉ ln := by
  induction l with
  | nil =>
    intro ln hln
    rw [show splitChar sep [] = [[]] from rfl, List.mem_singleton] at hln
    subst hln
    simp
  | cons c rest ih =>
    intro ln hln
    rw [splitChar_cons] at hln
    by_cases h : c = sep
    · rw [if_pos h] at hln
      rcases List.mem_cons.mp hln with hln | hln
      · subst hln
        simp
      · exact ih ln hln
    · rw [if_neg h] at hln
      rcases hs : splitChar sep rest with _ | ⟨seg, segs⟩
      · exact absurd hs (splitChar_ne_nil sep rest)
      · rw [hs, consHead] at hln
        rcases List.mem_cons.mp hln with hln | hln
        · subst hln
          intro hmem
          rcases List.mem_cons.mp hmem with hc | hc
          · exact h hc.symm
          · exact ih seg (hs ▸ List.mem_cons_self _ _) hc
        · exact ih ln (hs ▸ List.mem_cons_of_mem _ hln)

theorem mem_joinNl (c : Char) (N : List (List Char)) (h : c ∈ joinNl N) :
    c = '\n' ∨ ∃ ln ∈ N, c ∈ ln := by
  induction N with
  | nil => simp [joinNl] at h
  | cons ln rest ih =>
    cases rest with
    | nil => exact Or.inr ⟨ln, List.mem_cons_self _ _, h⟩
    | cons ln2 rest2 =>
      rw [joinNl_cons _ _ (by simp), List.mem_append] at h
      rcases h with h | h
      · exact Or.inr ⟨ln, List.mem_cons_self _ _, h⟩
      · rcases List.mem_cons.mp h with h | h
        · exact Or.inl h
        · rcases ih h with h | ⟨m, hm, hc⟩
          · exact Or.inl h
          · exact Or.inr ⟨m, List.mem_cons_of_mem _ hm, hc⟩

theorem mem_joinNl_of_mem (c : Char) (N : List (List Char)) (ln : List Char)
    (hln : ln ∈ N) (hc : c ∈ ln) : c ∈ joinNl N := by
  induction N with
  | nil => exact absurd hln (List.not_mem_nil ln)
  | cons x rest ih =>
    cases rest with
    | nil =>
      rw [List.mem_singleton] at hln
      subst hln
      exact hc
    | cons x2 rest2 =>
      rw [joinNl_cons _ _ (by simp), List.mem_append]
      rcases List.mem_cons.mp hln with hln | hln
      · subst hln
        exact Or.inl hc
      · exact Or.inr (List.mem_cons_of_mem _ (ih hln))

theorem mem_of_mem_splitNl (c : Char) (l ln : List Char)
    (hln : ln ∈ splitChar '\n' l) (hc : c ∈ ln) : c ∈ l :=
  joinNl_splitChar l ▸ mem_joinNl_of_mem c (splitChar '\n' l) ln hln hc

theorem getLast?_append_right {α : Type} (l1 l2 : List α) (h : l2 ≠ []) :
    (l1 ++ l2).getLast? = l2.getLast? := by
  rw [List.getLast?_eq_head?_reverse, List.getLast?_eq_head?_reverse, List.reverse_append]
  cases hr : l2.reverse with
  | nil => exact absurd (by simpa using congrArg List.reverse hr) h
  | cons y ys => rfl

theorem joinNl_ne_nil_of_getLast (N : List (List Char)) (ln : List Char)
    (h : N.getLast? = some ln) (hln : ln ≠ []) : joinNl N ≠ [] := by
  induction N with
  | nil => simp at h
  | cons x rest ih =>
    cases rest with
    | nil =>
      rw [List.getLast?_singleton] at h
      injection h with h
      subst h
      exact hln
    | cons x2 rest2 =>
      rw [joinNl_cons _ _ (by simp)]
      simp

theorem joinNl_getLast (N : List (List Char)) (ln : List Char)
    (h : N.getLast? = some ln) (hln : ln ≠ []) :
    (joinNl N).getLast? = ln.getLast? := by
  induction N with
  | nil => simp at h
  | cons x rest ih =>
    cases rest with
    | nil =>
      rw [List.getLast?_singleton] at h
      injection h with h
      subst h
      rfl
    | cons x2 rest2 =>
      rw [List.getLast?_cons_cons] at h
      rw [joinNl_cons _ _ (by simp),
        getLast?_append_right x _ (by simp),
        show '\n' :: joinNl (x2 :: rest2) = ['\n'] ++ joinNl (x2 :: rest2) from rfl,
        getLast?_append_right _ _ (joinNl_ne_nil_of_getLast _ ln h hln)]
      exact ih h

theorem joinNl_head (ln : List Char) (N : List (List Char)) (h : ln ≠ []) :
    (joinNl (ln :: N)).head? = ln.head? := by
  cases N with
  | nil => rfl
  | cons x2 rest2 =>
    rw [joinNl_cons _ _ (by simp)]
    cases ln with
    | nil => exact absurd rfl h
    | cons c cs => rfl

theorem dropWhile_head_not {p : Char → Bool} {l : List Char} {c : Char}
    (h : (l.dropWhile p).head? = some c) : p c = false := by
  induction l with
  | nil => simp at h
  | cons x xs ih =>
    rw [List.dropWhile_cons] at h
    by_cases hp : p x = true
    · rw [if_pos hp] at h
      exact ih h
    · rw [if_neg hp] at h
      injection h with h
      subst h
      exact Bool.eq_false_iff.mpr hp

theorem dropWhile_eq_self_of_head {p : Char → Bool} {l : List Char}
    (h : ∀ c, l.head? = some c → p c = false) : l.dropWhile p = l := by
  cases l with
  | nil => rfl
  | cons x xs =>
    rw [List.dropWhile_cons, if_neg]
    rw [h x rfl]
    simp

theorem getLast?_dropWhile {p : Char → Bool} {l : List Char}
    (h : l.dropWhile p ≠ []) : (l.dropWhile p).getLast? = l.getLast? := by
  conv_rhs => rw [← List.takeWhile_append_dropWhile (p := p) (l := l)]
  rw [getLast?_append_right _ _ h]

theorem head?_reverse_eq (l : List Char) : l.reverse.head? = l.getLast? := by
  cases l with
  | nil => rfl
  | cons x xs => rw [List.getLast?_eq_head?_reverse]

theorem pyStrip_head_not_ws {l : List Char} {c : Char}
    (h : (pyStrip l).head? = some c) : pyIsSpace c = false := by
  unfold pyStrip at h
  rw [head?_reverse_eq] at h
  have hne : (l.dropWhile pyIsSpace).reverse.dropWhile pyIsSpace ≠ [] := by
    intro he
    rw [he] at h
    simp at h
  rw [getLast?_dropWhile hne, ← head?_reverse_eq, List.reverse_reverse] at h
  exact dropWhile_head_not h

theorem pyStrip_getLast_not_ws {l : List Char} {c : Char}
    (h : (pyStrip l).getLast? = some c) : pyIsSpace c = false := by
  unfold pyStrip at h
  rw [← head?_reverse_eq, List.reverse_reverse] at h
  exact dropWhile_head_not h

theorem pyStrip_eq_self {l : List Char}
    (hh : ∀ c, l.head? = some c → pyIsSpace c = false)
    (hl : ∀ c, l.getLast? = some c → pyIsSpace c = false) : pyStrip l = l := by
  unfold pyStrip
  rw [dropWhile_eq_self_of_head hh]
  rw [dropWhile_eq_self_of_head (fun c hc => hl c (by rw [← head?_reverse_eq]; exact hc)),
    List.reverse_reverse]

theorem pyStrip_append_nl {l : List Char}
    (hh : ∀ c, l.head? = some c → pyIsSpace c = false)
    (hl : ∀ c, l.getLast? = some c → pyIsSpace c = false) :
    pyStrip (l ++ ['\n']) = l := by
  cases l with
  | nil => rfl
  | cons x xs =>
    unfold pyStrip
    have h1 : ((x :: xs) ++ ['\n']).dropWhile pyIsSpace = (x :: xs) ++ ['\n'] := by
      apply dropWhile_eq_self_of_head
      intro c hc
      rw [List.cons_append] at hc
      injection hc with hc
      subst hc
      exact hh _ rfl
    rw [h1]
    have h2 : ((x :: xs) ++ ['\n']).reverse = '\n' :: (x :: xs).reverse := by
      rw [List.reverse_append]
      rfl
    rw [h2, List.dropWhile_cons, if_pos (show pyIsSpace '\n' = true from rfl),
      dropWhile_eq_self_of_head
        (fun c hc => hl c (by rw [← head?_reverse_eq]; exact hc)),
      List.reverse_reverse]

end PyStr

namespace PyStr

theorem ws_mem_collapseWsAux {c : Char} {b : Bool} {m : List Char}
    (h : c ∈ collapseWsAux b m) (hws : pyIsSpace c = true) : c = ' ' := by
  induction m generalizing b with
  | nil => simp [collapseWsAux] at h
  | cons x xs ih =>
    rw [collapseWsAux] at h
    by_cases hx : pyIsSpace x = true
    · rw [if_pos hx] at h
      by_cases hb : b = true
      · rw [if_pos hb] at h
        exact ih h
      · rw [if_neg hb] at h
        rcases List.mem_cons.mp h with h | h
        · exact h
        · exact ih h
    · rw [if_neg hx] at h
      rcases List.mem_cons.mp h with h | h
      · subst h
        exact absurd hws (by simp [hx])
      · exact ih h

theorem head?_collapseWsAux {c : Char} {b : Bool} {m : List Char}
    (h : m.head? = some c) (hc : pyIsSpace c = false) :
    (collapseWsAux b m).head? = some c := by
  cases m with
  | nil => simp at h
  | cons x xs =>
    injection h with h
    subst h
    rw [collapseWsAux, if_neg (by simp [hc])]
    rfl

theorem getLast?_collapseWsAux {c : Char} {b : Bool} {m : List Char}
    (h : m.getLast? = some c) (hc : pyIsSpace c = false) :
    (collapseWsAux b m).getLast? = some c := by
  induction m generalizing b with
  | nil => simp at h
  | cons x xs ih =>
    cases xs with
    | nil =>
      rw [List.getLast?_singleton] at h
      injection h with h
      subst h
      rw [collapseWsAux, if_neg (by simp [hc])]
      rfl
    | cons y ys =>
      rw [List.getLast?_cons_cons] at h
      rw [collapseWsAux]
      by_cases hx : pyIsSpace x = true
      · rw [if_pos hx]
        by_cases hb : b = true
        · rw [if_pos hb]
          exact ih h
        · rw [if_neg hb]
          rw [show (' ' :: collapseWsAux true (y :: ys)).getLast? =
            (collapseWsAux true (y :: ys)).getLast? from ?_]
          · exact ih h
          · rw [show ' ' :: collapseWsAux true (y :: ys) =
              [' '] ++ collapseWsAux true (y :: ys) from rfl]
            refine getLast?_append_right _ _ ?_
            intro he
            have := ih (b := true) h
            rw [he] at this
            simp at this
      · rw [if_neg hx]
        rw [show (x :: collapseWsAux false (y :: ys)).getLast? =
          (collapseWsAux false (y :: ys)).getLast? from ?_]
        · exact ih h
        · rw [show x :: collapseWsAux false (y :: ys) =
            [x] ++ collapseWsAux false (y :: ys) from rfl]
          refine getLast?_append_right _ _ ?_
          intro he
          have := ih (b := false) h
          rw [he] at this
          simp at this

theorem noAdjWs_cons_of_not_ws {c : Char} {w : List Char}
    (hc : pyIsSpace c = false) (hw : Utils.noAdjWs w = true) :
    Utils.noAdjWs (c :: w) = true := by
  cases w with
  | nil => rfl
  | cons d ds =>
    rw [Utils.noAdjWs]
    simp [hc, hw]

theorem noAdjWs_cons_of_head {c : Char} {w : List Char}
    (hw : Utils.noAdjWs w = true)
    (hhead : ∀ d, w.head? = some d → pyIsSpace d = false) :
    Utils.noAdjWs (c :: w) = true := by
  cases w with
  | nil => rfl
  | cons d ds =>
    rw [Utils.noAdjWs]
    simp [hhead d rfl, hw]

theorem noAdjWs_collapseWsAux (m : List Char) :
    ∀ b, Utils.noAdjWs (collapseWsAux b m) = true ∧
      (b = true → ∀ c, (collapseWsAux b m).head? = some c → pyIsSpace c = false) := by
  induction m with
  | nil => intro b; exact ⟨rfl, fun _ c hc => by simp [collapseWsAux] at hc⟩
  | cons x xs ih =>
    intro b
    rw [collapseWsAux]
    by_cases hx : pyIsSpace x = true
    · rw [if_pos hx]
      by_cases hb : b = true
      · rw [if_pos hb]
        exact ⟨(ih true).1, fun _ => (ih true).2 rfl⟩
      · rw [if_neg hb]
        constructor
        · exact noAdjWs_cons_of_head (ih true).1 ((ih true).2 rfl)
        · intro hbt
          exact absurd hbt hb
    · rw [if_neg hx]
      constructor
      · cases hxs : collapseWsAux false xs with
        | nil => rfl
        | cons d ds =>
          refine noAdjWs_cons_of_not_ws (Bool.eq_false_iff.mpr hx) ?_
          rw [← hxs]
          exact (ih false).1
      · intro _ c hc
        injection hc with hc
        subst hc
        exact Bool.eq_false_iff.mpr hx

theorem collapseWsAux_eq_self {m : List Char}
    (hadj : Utils.noAdjWs m = true)
    (hsp : ∀ c ∈ m, pyIsSpace c = true → c = ' ') :
    ∀ b, (b = true → ∀ c, m.head? = some c → pyIsSpace c = false) →
      collapseWsAux b m = m := by
  induction m with
  | nil => intro b _; rfl
  | cons x xs ih =>
    intro b hb
    rw [collapseWsAux]
    by_cases hx : pyIsSpace x = true
    · rw [if_pos hx]
      have hxsp : x = ' ' := hsp x (List.mem_cons_self _ _) hx
      by_cases hbt : b = true
      · exact absurd hx (by rw [hb hbt x rfl]; simp)
      · rw [if_neg hbt, hxsp]
        congr 1
        refine ih ?_ (fun c hc => hsp c (List.mem_cons_of_mem _ hc)) true ?_
        · cases xs with
          | nil => rfl
          | cons y ys =>
            rw [Utils.noAdjWs] at hadj
            exact (Bool.and_eq_true _ _ |>.mp hadj).2
        · intro _ c hc
          cases xs with
          | nil => simp at hc
          | cons y ys =>
            injection hc with hc
            subst hc
            rw [Utils.noAdjWs] at hadj
            have := (Bool.and_eq_true _ _ |>.mp hadj).1
            simp only [Bool.not_eq_true', Bool.and_eq_false_iff] at this
            rcases this with h | h
            · exact absurd hx (by simp [h])
            · exact h
    · rw [if_neg hx]
      congr 1
      refine ih ?_ (fun c hc => hsp c (List.mem_cons_of_mem _ hc)) false (by simp)
      cases xs with
      | nil => rfl
      | cons y ys =>
        rw [Utils.noAdjWs] at hadj
        exact (Bool.and_eq_true _ _ |>.mp hadj).2

theorem collapseWsAux_false_eq_self_of_no_ws {m : List Char}
    (h : ∀ c ∈ collapseWsAux false m, pyIsSpace c = false) :
    collapseWsAux false m = m := by
  induction m with
  | nil => rfl
  | cons x xs ih =>
    rw [collapseWsAux] at *
    by_cases hx : pyIsSpace x = true
    · rw [if_pos hx, if_neg (by simp)] at h
      have := h ' ' (List.mem_cons_self _ _)
      simp [pyIsSpace] at this
    · rw [if_neg hx] at h ⊢
      congr 1
      exact ih (fun c hc => h c (List.mem_cons_of_mem _ hc))

end PyStr

namespace Utils

open PyStr

theorem cleanLine_head_not_ws {m : List Char} {c : Char}
    (h : (cleanLine m).head? = some c) : pyIsSpace c = false := by
  unfold cleanLine collapseWs at h
  cases hz : pyStrip m with
  | nil =>
    rw [hz] at h
    simp [collapseWsAux] at h
  | cons x xs =>
    rw [hz] at h
    have hx : pyIsSpace x = false := pyStrip_head_not_ws (show (pyStrip m).head? = some x by rw [hz]; rfl)
    rw [head?_collapseWsAux (show (x :: xs).head? = some x from rfl) hx] at h
    injection h with h
    subst h
    exact hx

theorem cleanLine_getLast_not_ws {m : List Char} {c : Char}
    (h : (cleanLine m).getLast? = some c) : pyIsSpace c = false := by
  unfold cleanLine collapseWs at h
  cases hz : pyStrip m with
  | nil =>
    rw [hz] at h
    simp [collapseWsAux] at h
  | cons x xs =>
    rw [hz] at h
    have hlast : ∃ d, (x :: xs).getLast? = some d := ⟨(x :: xs).getLast (by simp),
      List.getLast?_eq_getLast _ _⟩
    obtain ⟨d, hd⟩ := hlast
    have hdws : pyIsSpace d = false := pyStrip_getLast_not_ws (by rw [hz]; exact hd)
    rw [getLast?_collapseWsAux hd hdws] at h
    injection h with h
    subst h
    exact hdws

theorem ws_mem_cleanLine {m : List Char} {c : Char}
    (h : c ∈ cleanLine m) (hws : pyIsSpace c = true) : c = ' ' :=
  ws_mem_collapseWsAux h hws

theorem noAdjWs_cleanLine (m : List Char) : noAdjWs (cleanLine m) = true :=
  (noAdjWs_collapseWsAux (pyStrip m) false).1

theorem cleanLine_idem (m : List Char) : cleanLine (cleanLine m) = cleanLine m := by
  have hstrip : pyStrip (cleanLine m) = cleanLine m :=
    pyStrip_eq_self (fun c hc => cleanLine_head_not_ws hc)
      (fun c hc => cleanLine_getLast_not_ws hc)
  show collapseWs (pyStrip (cleanLine m)) = cleanLine m
  rw [hstrip]
  exact collapseWsAux_eq_self (noAdjWs_cleanLine m)
    (fun c hc hws => ws_mem_cleanLine hc hws) false (by simp)

theorem pyStrip_cleanLine (m : List Char) : pyStrip (cleanLine m) = cleanLine m :=
  pyStrip_eq_self (fun c hc => cleanLine_head_not_ws hc)
    (fun c hc => cleanLine_getLast_not_ws hc)

theorem cleanLine_all_reflect {m : List Char} (q : Char → Bool)
    (hq : ∀ c, q c = true → pyIsSpace c = false)
    (hne : (cleanLine m).isEmpty = false)
    (hall : (cleanLine m).all q = true) :
    cleanLine m = pyStrip m := by
  show collapseWsAux false (pyStrip m) = pyStrip m
  refine collapseWsAux_false_eq_self_of_no_ws ?_
  intro c hc
  exact hq c (List.all_eq_true.mp hall c hc)

theorem isHashLine_cleanLine_reflect {m : List Char}
    (h : isHashLine (cleanLine m) = true) : isHashLine m = true := by
  unfold isHashLine at h ⊢
  rw [pyStrip_cleanLine] at h
  rw [Bool.and_eq_true] at h
  obtain ⟨hne, hall⟩ := h
  have heq := cleanLine_all_reflect (fun c => c = '#')
    (fun c hc => by
      have : c = '#' := by simpa using hc
      subst this
      rfl) (by simpa using hne) hall
  rw [← heq, Bool.and_eq_true]
  exact ⟨hne, hall⟩

theorem isDividerLine_cleanLine_reflect {m : List Char}
    (h : isDividerLine (cleanLine m) = true) : isDividerLine m = true := by
  unfold isDividerLine at h ⊢
  rw [pyStrip_cleanLine] at h
  rw [Bool.and_eq_true] at h
  obtain ⟨hne, hall⟩ := h
  have heq := cleanLine_all_reflect (fun c => c = '-' || c = '*' || c = '_')
    (fun c hc => by
      rcases Bool.or_eq_true _ _ |>.mp hc with hc | hc
      · rcases Bool.or_eq_true _ _ |>.mp hc with hc | hc <;>
          · have := of_decide_eq_true hc
            subst this
            rfl
      · have := of_decide_eq_true hc
        subst this
        rfl) (by simpa using hne) hall
  rw [← heq, Bool.and_eq_true]
  exact ⟨hne, hall⟩

theorem isQuoteLine_cleanLine_reflect {m : List Char}
    (h : isQuoteLine (cleanLine m) = true) : isQuoteLine m = true := by
  unfold isQuoteLine at h ⊢
  rw [pyStrip_cleanLine] at h
  have hz : cleanLine m = ['>'] := by simpa using h
  have heq := cleanLine_all_reflect (fun c => c = '>')
    (fun c hc => by
      have : c = '>' := by simpa using hc
      subst this
      rfl) (by rw [hz]; rfl) (by rw [hz]; rfl)
  rw [← heq, hz]
  simp

end Utils

namespace Utils

open PyStr

theorem keepLines_cons (b : Bool) (ln : List Char) (rest : List (List Char)) :
    keepLines b (ln :: rest) =
      if ln = [] then
        (if b then [] :: keepLines false rest else keepLines b rest)
      else ln :: keepLines true rest := rfl

theorem noAdjEmpty_cons_cons (a b : List Char) (rest : List (List Char)) :
    noAdjEmpty (a :: b :: rest) =
      ((!(a.isEmpty && b.isEmpty)) && noAdjEmpty (b :: rest)) := rfl

theorem noAdjEmpty_singleton (a : List Char) : noAdjEmpty [a] = true := rfl

theorem noAdjEmpty_tail {a : List Char} {rest : List (List Char)}
    (h : noAdjEmpty (a :: rest) = true) : noAdjEmpty rest = true := by
  cases rest with
  | nil => rfl
  | cons b bs =>
    rw [noAdjEmpty_cons_cons, Bool.and_eq_true] at h
    exact h.2

theorem noAdjEmpty_cons_of_ne {a : List Char} {rest : List (List Char)}
    (ha : a ≠ []) (h : noAdjEmpty rest = true) : noAdjEmpty (a :: rest) = true := by
  cases rest with
  | nil => rfl
  | cons b bs =>
    rw [noAdjEmpty_cons_cons, Bool.and_eq_true]
    refine ⟨?_, h⟩
    cases a with
    | nil => exact absurd rfl ha
    | cons c cs => rfl

theorem noAdjEmpty_cons_of_head {a : List Char} {rest : List (List Char)}
    (h : noAdjEmpty rest = true) (hh : rest.head? ≠ some []) :
    noAdjEmpty (a :: rest) = true := by
  cases rest with
  | nil => rfl
  | cons b bs =>
    rw [noAdjEmpty_cons_cons, Bool.and_eq_true]
    refine ⟨?_, h⟩
    cases b with
    | nil => exact absurd rfl hh
    | cons c cs => simp

theorem mem_keepLines {ln : List Char} {b : Bool} {L : List (List Char)}
    (h : ln ∈ keepLines b L) : ln ∈ L := by
  induction L generalizing b with
  | nil => simpa [keepLines] using h
  | cons x xs ih =>
    rw [keepLines_cons] at h
    by_cases hx : x = []
    · rw [if_pos hx] at h
      by_cases hb : b = true
      · rw [if_pos hb] at h
        rcases List.mem_cons.mp h with h | h
        · subst h
          subst hx
          exact List.mem_cons_self _ _
        · exact List.mem_cons_of_mem _ (ih h)
      · rw [if_neg hb] at h
        exact List.mem_cons_of_mem _ (ih h)
    · rw [if_neg hx] at h
      rcases List.mem_cons.mp h with h | h
      · subst h
        exact List.mem_cons_self _ _
      · exact List.mem_cons_of_mem _ (ih h)

theorem keepLines_shape (L : List (List Char)) :
    ∀ b, noAdjEmpty (keepLines b L) = true ∧
      (b = false → (keepLines b L).head? ≠ some []) := by
  induction L with
  | nil => intro b; exact ⟨rfl, fun _ h => by simp [keepLines] at h⟩
  | cons x xs ih =>
    intro b
    rw [keepLines_cons]
    by_cases hx : x = []
    · rw [if_pos hx]
      by_cases hb : b = true
      · rw [if_pos hb]
        constructor
        · exact noAdjEmpty_cons_of_head (ih false).1 ((ih false).2 rfl)
        · intro hbf
          rw [hbf] at hb
          simp at hb
      · rw [if_neg hb]
        exact ih b
    · rw [if_neg hx]
      constructor
      · exact noAdjEmpty_cons_of_ne hx (ih true).1
      · intro _ h
        injection h with h
        exact hx h
    
theorem keepLines_eq_self {N : List (List Char)}
    (hadj : noAdjEmpty N = true) :
    ∀ b, (b = false → N.head? ≠ some []) → keepLines b N = N := by
  induction N with
  | nil => intro b _; rfl
  | cons x xs ih =>
    intro b hb
    rw [keepLines_cons]
    by_cases hx : x = []
    · rw [if_pos hx]
      have hbt : b = true := by
        by_contra hbf
        exact hb (Bool.eq_false_iff.mpr hbf) (by rw [hx]; rfl)
      rw [if_pos hbt, hx]
      congr 1
      refine ih (noAdjEmpty_tail hadj) false (fun _ hh => ?_)
      subst hx
      cases xs with
      | nil => simp at hh
      | cons y ys =>
        rw [noAdjEmpty_cons_cons, Bool.and_eq_true] at hadj
        have := hadj.1
        injection hh with hh
        subst hh
        simp at this
    · rw [if_neg hx]
      congr 1
      exact ih (noAdjEmpty_tail hadj) true (by simp)

end Utils

namespace Utils

open PyStr

theorem collapseNl3_nil : collapseNl3 [] = [] := by rw [collapseNl3]

theorem collapseNl3_cons_neg (c : Char) (rest : List Char)
    (h : ¬(c = '\n' ∧ 3 ≤ ((wsRunCore (c :: rest)).count '\n'))) :
    collapseNl3 (c :: rest) = c :: collapseNl3 rest := by
  rw [collapseNl3, dif_neg h]

theorem count_dropWhile_le (p : Char → Bool) (a : Char) (s : List Char) :
    (s.dropWhile p).count a ≤ s.count a := by
  induction s with
  | nil => simp
  | cons x xs ih =>
    rw [List.dropWhile_cons]
    by_cases hp : p x = true
    · rw [if_pos hp]
      refine le_trans ih ?_
      rw [List.count_cons]
      omega
    · rw [if_neg hp]

theorem wsRunCore_count_le (w : List Char) :
    (wsRunCore ('\n' :: w)).count '\n' ≤ 1 + (w.takeWhile pyIsSpace).count '\n' := by
  unfold wsRunCore
  rw [List.takeWhile_cons, if_pos (show pyIsSpace '\n' = true from rfl)]
  rw [List.count_reverse]
  refine le_trans (count_dropWhile_le _ _ _) ?_
  rw [List.count_reverse, List.count_cons]
  simp
  omega

theorem takeWhile_nil_of_head {w : List Char}
    (h : ∀ d, w.head? = some d → pyIsSpace d = false) :
    w.takeWhile pyIsSpace = [] := by
  cases w with
  | nil => rfl
  | cons d w' => rw [List.takeWhile_cons, if_neg (by rw [h d rfl]; simp)]

theorem collapseNl3_nl (w : List Char)
    (h : (w.takeWhile pyIsSpace).count '\n' ≤ 1) :
    collapseNl3 ('\n' :: w) = '\n' :: collapseNl3 w := by
  refine collapseNl3_cons_neg '\n' w (fun hc => ?_)
  have h1 := wsRunCore_count_le w
  have h2 := hc.2
  omega

theorem collapseNl3_append {m : List Char} (z : List Char) (hm : '\n' ∉ m) :
    collapseNl3 (m ++ z) = m ++ collapseNl3 z := by
  induction m with
  | nil => rfl
  | cons c m' ih =>
    rw [List.cons_append,
      collapseNl3_cons_neg c (m' ++ z)
        (fun hc => hm (by rw [← hc.1]; exact List.mem_cons_self _ _)),
      ih (fun hx => hm (List.mem_cons_of_mem _ hx))]
    rfl

theorem goodLine_head_not_nl {N : List (List Char)}
    (hl : ∀ ln ∈ N, '\n' ∉ ln ∧ ∀ d, ln.head? = some d → pyIsSpace d = false)
    (ha : noAdjEmpty N = true) :
    ((joinNl N).takeWhile pyIsSpace).count '\n' ≤ 1 := by
  cases N with
  | nil => simp [joinNl]
  | cons ln2 N'' =>
    by_cases h2 : ln2 = []
    · subst h2
      cases N'' with
      | nil => simp [joinNl]
      | cons ln3 N''' =>
        have h3 : ln3 ≠ [] := by
          intro h3
          rw [noAdjEmpty_cons_cons, Bool.and_eq_true] at ha
          rw [h3] at ha
          simp at ha
        have htw : (joinNl (ln3 :: N''')).takeWhile pyIsSpace = [] := by
          refine takeWhile_nil_of_head (fun e he => ?_)
          rw [joinNl_head _ _ h3] at he
          exact (hl ln3 (by simp)).2 e he
        show ((('\n' :: joinNl (ln3 :: N''')).takeWhile pyIsSpace).count '\n') ≤ 1
        rw [List.takeWhile_cons, if_pos (show pyIsSpace '\n' = true from rfl), htw]
        simp
    · have htw : (joinNl (ln2 :: N'')).takeWhile pyIsSpace = [] := by
        refine takeWhile_nil_of_head (fun e he => ?_)
        rw [joinNl_head _ _ h2] at he
        exact (hl ln2 (by simp)).2 e he
      rw [htw]
      simp

theorem collapseNl3_joinNl (N : List (List Char))
    (hl : ∀ ln ∈ N, '\n' ∉ ln ∧ ∀ d, ln.head? = some d → pyIsSpace d = false)
    (ha : noAdjEmpty N = true) :
    collapseNl3 (joinNl N) = joinNl N := by
  induction N with
  | nil => exact collapseNl3_nil
  | cons ln N' ih =>
    cases N' with
    | nil =>
      show collapseNl3 ln = ln
      rw [← List.append_nil ln, collapseNl3_append [] (hl ln (List.mem_cons_self _ _)).1,
        collapseNl3_nil]
    | cons ln2 N'' =>
      rw [joinNl_cons _ _ (by simp),
        collapseNl3_append _ (hl ln (List.mem_cons_self _ _)).1]
      congr 1
      rw [collapseNl3_nl _ (goodLine_head_not_nl
        (fun m hm => hl m (List.mem_cons_of_mem _ hm)) (noAdjEmpty_tail ha))]
      congr 1
      exact ih (fun m hm => hl m (List.mem_cons_of_mem _ hm)) (noAdjEmpty_tail ha)

end Utils

namespace Utils

open PyStr

theorem collapseNl2_nil : collapseNl2 [] = [] := by rw [collapseNl2]

theorem collapseNl2_cons_neg (c : Char) (rest : List Char)
    (h : ¬(c = '\n' ∧ rest.head? = some '\n')) :
    collapseNl2 (c :: rest) = c :: collapseNl2 rest := by
  rw [collapseNl2, dif_neg h]

theorem collapseNl2_cons_pos (rest : List Char) (h : rest.head? = some '\n') :
    collapseNl2 ('\n' :: rest) =
      '\n' :: '\n' :: collapseNl2 (rest.dropWhile (fun d => d = '\n')) := by
  rw [collapseNl2, dif_pos ⟨rfl, h⟩]

theorem collapseNl2_append {m : List Char} (z : List Char) (hm : '\n' ∉ m) :
    collapseNl2 (m ++ z) = m ++ collapseNl2 z := by
  induction m with
  | nil => rfl
  | cons c m' ih =>
    rw [List.cons_append,
      collapseNl2_cons_neg c (m' ++ z)
        (fun hc => hm (by rw [← hc.1]; exact List.mem_cons_self _ _)),
      ih (fun hx => hm (List.mem_cons_of_mem _ hx))]
    rfl

theorem dropWhile_nl_cons (w : List Char)
    (h : ∀ d, w.head? = some d → d ≠ '\n') :
    ('\n' :: w).dropWhile (fun d => (d = '\n' : Bool)) = w := by
  rw [List.dropWhile_cons, if_pos (by simp)]
  refine dropWhile_eq_self_of_head (fun d hd => ?_)
  have := h d hd
  simp [this]

theorem collapseNl2_joinNl_aux (n : Nat) : ∀ (N : List (List Char)), N.length = n →
    (∀ ln ∈ N, '\n' ∉ ln) → noAdjEmpty N = true →
    collapseNl2 (joinNl N) = joinNl N := by
  induction n using Nat.strong_induction_on with
  | _ n ih =>
    intro N hn hl ha
    cases N with
    | nil => exact collapseNl2_nil
    | cons ln N' =>
      cases N' with
      | nil =>
        show collapseNl2 ln = ln
        rw [← List.append_nil ln,
          collapseNl2_append [] (hl ln (List.mem_cons_self _ _)), collapseNl2_nil]
      | cons ln2 N'' =>
        rw [joinNl_cons _ _ (by simp),
          collapseNl2_append _ (hl ln (List.mem_cons_self _ _))]
        congr 1
        by_cases h2 : ln2 = []
        · subst h2
          cases N'' with
          | nil =>
            show collapseNl2 ['\n'] = ['\n']
            rw [collapseNl2_cons_neg '\n' [] (by simp), collapseNl2_nil]
          | cons ln3 N''' =>
            have ha' : noAdjEmpty ([] :: ln3 :: N''') = true := noAdjEmpty_tail ha
            have h3 : ln3 ≠ [] := by
              intro h3
              rw [noAdjEmpty_cons_cons, Bool.and_eq_true] at ha'
              rw [h3] at ha'
              simp at ha'
            have hw : joinNl (([] : List Char) :: ln3 :: N''') = '\n' :: joinNl (ln3 :: N''') := by
              rw [joinNl_cons _ _ (by simp)]
              rfl
            rw [hw, collapseNl2_cons_pos ('\n' :: joinNl (ln3 :: N''')) rfl]
            have hhd : ∀ d, (joinNl (ln3 :: N''')).head? = some d → d ≠ '\n' := by
              intro d hd he
              rw [joinNl_head _ _ h3] at hd
              cases ln3 with
              | nil => exact h3 rfl
              | cons c cs =>
                injection hd with hd
                subst hd
                subst he
                exact hl (('\n' : Char) :: cs)
                  (List.mem_cons_of_mem _ (List.mem_cons_of_mem _ (List.mem_cons_self _ _)))
                  (List.mem_cons_self _ _)
            rw [dropWhile_nl_cons _ hhd]
            congr 1
            congr 1
            refine ih (ln3 :: N''').length (by simp at hn ⊢; omega) _ rfl
              (fun m hm => hl m (List.mem_cons_of_mem _ (List.mem_cons_of_mem _ hm)))
              (noAdjEmpty_tail ha')
        · have hguard : ¬(('\n' : Char) = '\n' ∧ (joinNl (ln2 :: N'')).head? = some '\n') := by
            intro hc
            obtain ⟨-, hc2⟩ := hc
            rw [joinNl_head _ _ h2] at hc2
            cases ln2 with
            | nil => exact h2 rfl
            | cons c cs =>
              injection hc2 with he
              subst he
              exact hl (('\n' : Char) :: cs)
                (List.mem_cons_of_mem _ (List.mem_cons_self _ _)) (List.mem_cons_self _ _)
          rw [collapseNl2_cons_neg '\n' _ hguard]
          congr 1
          exact ih (ln2 :: N'').length (by simp at hn ⊢; omega) _ rfl
            (fun m hm => hl m (List.mem_cons_of_mem _ hm)) (noAdjEmpty_tail ha)

theorem collapseNl2_joinNl (N : List (List Char))
    (hl : ∀ ln ∈ N, '\n' ∉ ln) (ha : noAdjEmpty N = true) :
    collapseNl2 (joinNl N) = joinNl N :=
  collapseNl2_joinNl_aux N.length N rfl hl ha

end Utils

namespace Utils

open PyStr

theorem hasTriple_nil : hasTriple [] = false := rfl

theorem hasTriple_cons_of_ne (c : Char) (rest : List Char) (hc : c ≠ '\n') :
    hasTriple (c :: rest) = hasTriple rest := by
  rw [hasTriple.eq_def]
  split
  · rename_i v heq
    injection heq with a1 a2
    exact absurd a1 hc
  · rename_i c2 r2 hx heq
    injection heq with a1 a2
    subst a1
    subst a2
    rfl
  · rename_i heq
    cases heq

theorem hasTriple_nl (rest : List Char)
    (h : ¬(rest.head? = some '\n' ∧ rest.tail.head? = some '\n')) :
    hasTriple ('\n' :: rest) = hasTriple rest := by
  rw [hasTriple.eq_def]
  split
  · rename_i v heq
    injection heq with a1 a2
    exact absurd (by rw [a2]; exact ⟨rfl, rfl⟩) h
  · rename_i c2 r2 hx heq
    injection heq with a1 a2
    subst a2
    rfl
  · rename_i heq
    cases heq

theorem hasTriple_of_no_nl {l : List Char} (h : '\n' ∉ l) : hasTriple l = false := by
  induction l with
  | nil => exact hasTriple_nil
  | cons c rest ih =>
    rw [hasTriple_cons_of_ne c rest (fun hc => h (by rw [← hc]; exact List.mem_cons_self _ _))]
    exact ih (fun hx => h (List.mem_cons_of_mem _ hx))

theorem hasTriple_append {m : List Char} (z : List Char) (hm : '\n' ∉ m) :
    hasTriple (m ++ z) = hasTriple z := by
  induction m with
  | nil => rfl
  | cons c m' ih =>
    rw [List.cons_append,
      hasTriple_cons_of_ne c _ (fun hc => hm (by rw [← hc]; exact List.mem_cons_self _ _))]
    exact ih (fun hx => hm (List.mem_cons_of_mem _ hx))

theorem joinNl_head_ne_nl {ln2 : List Char} (N'' : List (List Char))
    (h2 : ln2 ≠ []) (hnl : '\n' ∉ ln2) : (joinNl (ln2 :: N'')).head? ≠ some '\n' := by
  intro hc
  rw [joinNl_head _ _ h2] at hc
  cases ln2 with
  | nil => exact h2 rfl
  | cons c cs =>
    injection hc with hc
    subst hc
    exact hnl (List.mem_cons_self _ _)

theorem hasTriple_joinNl_aux (n : Nat) : ∀ (N : List (List Char)), N.length = n →
    (∀ ln ∈ N, '\n' ∉ ln) → noAdjEmpty N = true →
    hasTriple (joinNl N) = false := by
  induction n using Nat.strong_induction_on with
  | _ n ih =>
    intro N hn hl ha
    cases N with
    | nil => exact hasTriple_nil
    | cons ln N' =>
      cases N' with
      | nil => exact hasTriple_of_no_nl (hl ln (List.mem_cons_self _ _))
      | cons ln2 N'' =>
        rw [joinNl_cons _ _ (by simp), hasTriple_append _ (hl ln (List.mem_cons_self _ _))]
        by_cases h2 : ln2 = []
        · subst h2
          cases N'' with
          | nil =>
            show hasTriple ['\n'] = false
            rw [hasTriple_nl [] (by simp), hasTriple_nil]
          | cons ln3 N''' =>
            have ha' : noAdjEmpty ([] :: ln3 :: N''') = true := noAdjEmpty_tail ha
            have h3 : ln3 ≠ [] := by
              intro h3
              rw [noAdjEmpty_cons_cons, Bool.and_eq_true] at ha'
              rw [h3] at ha'
              simp at ha'
            have hw : joinNl (([] : List Char) :: ln3 :: N''') = '\n' :: joinNl (ln3 :: N''') := by
              rw [joinNl_cons _ _ (by simp)]
              rfl
            have hhd2 : (joinNl (ln3 :: N''')).head? ≠ some '\n' :=
              joinNl_head_ne_nl _ h3
                (hl ln3 (List.mem_cons_of_mem _ (List.mem_cons_of_mem _ (List.mem_cons_self _ _))))
            rw [hw, hasTriple_nl ('\n' :: joinNl (ln3 :: N'''))
                (fun hc => hhd2 (by simpa using hc.2)),
              hasTriple_nl (joinNl (ln3 :: N''')) (fun hc => hhd2 hc.1)]
            exact ih (ln3 :: N''').length (by simp at hn ⊢; omega) _ rfl
              (fun m hm => hl m (List.mem_cons_of_mem _ (List.mem_cons_of_mem _ hm)))
              (noAdjEmpty_tail ha')
        · have hhd : (joinNl (ln2 :: N'')).head? ≠ some '\n' :=
            joinNl_head_ne_nl _ h2 (hl ln2 (List.mem_cons_of_mem _ (List.mem_cons_self _ _)))
          rw [hasTriple_nl _ (fun hc => hhd hc.1)]
          exact ih (ln2 :: N'').length (by simp at hn ⊢; omega) _ rfl
            (fun m hm => hl m (List.mem_cons_of_mem _ hm)) (noAdjEmpty_tail ha)

theorem hasTriple_joinNl (N : List (List Char))
    (hl : ∀ ln ∈ N, '\n' ∉ ln) (ha : noAdjEmpty N = true) :
    hasTriple (joinNl N) = false :=
  hasTriple_joinNl_aux N.length N rfl hl ha

theorem whileTriple_eq_of_no (l : List Char) (h : hasTriple l = false) :
    whileTriple l = l := by
  rw [whileTriple, dif_neg (by simp [h])]

end Utils

namespace Utils

open PyStr

theorem subTrailF_nl (acc : List Char) : subTrailF '\n' acc = '\n' :: acc := by
  unfold subTrailF
  rw [if_neg]
  simp

theorem subTrailF_of_not_ws (c : Char) (acc : List Char) (h : pyIsSpace c = false) :
    subTrailF c acc = c :: acc := by
  unfold subTrailF
  rw [if_neg]
  intro hg
  rw [Bool.and_eq_true, Bool.or_eq_true] at hg
  rcases hg.1 with h1 | h1
  · have h1 : c = ' ' := of_decide_eq_true h1
    subst h1
    exact absurd h (by simp [pyIsSpace])
  · have h1 : c = '\t' := of_decide_eq_true h1
    subst h1
    exact absurd h (by simp [pyIsSpace])

theorem subTrailF_of_head (c d : Char) (acc : List Char)
    (hd : acc.head? = some d) (hne : d ≠ '\n') : subTrailF c acc = c :: acc := by
  unfold subTrailF
  rw [if_neg]
  intro hg
  rw [Bool.and_eq_true] at hg
  have h2 := of_decide_eq_true hg.2
  rw [hd] at h2
  injection h2 with h2
  exact hne h2

theorem foldr_subTrailF (m : List Char) (acc : List Char) (hnl : '\n' ∉ m)
    (hlast : ∀ d, m.getLast? = some d → pyIsSpace d = false) :
    m.foldr subTrailF acc = m ++ acc := by
  induction m with
  | nil => rfl
  | cons c m' ih =>
    rw [List.foldr_cons]
    cases m' with
    | nil =>
      have hc : pyIsSpace c = false := hlast c (by rw [List.getLast?_singleton])
      rw [show List.foldr subTrailF acc [] = acc from rfl, subTrailF_of_not_ws c acc hc]
      rfl
    | cons d m'' =>
      rw [ih (fun hx => hnl (List.mem_cons_of_mem _ hx))
        (fun e he => hlast e (by rw [List.getLast?_cons_cons]; exact he)),
        subTrailF_of_head c d _ (by rw [List.cons_append]; rfl)
          (fun he => hnl (by rw [← he]; exact List.mem_cons_of_mem _ (List.mem_cons_self _ _)))]
      rfl

theorem subTrail_joinNl (N : List (List Char))
    (hl : ∀ ln ∈ N, '\n' ∉ ln ∧ ∀ d, ln.getLast? = some d → pyIsSpace d = false) :
    subTrail (joinNl N) = joinNl N := by
  induction N with
  | nil => rfl
  | cons ln N' ih =>
    cases N' with
    | nil =>
      show subTrail ln = ln
      unfold subTrail
      rw [foldr_subTrailF ln [] (hl ln (List.mem_cons_self _ _)).1
        (hl ln (List.mem_cons_self _ _)).2, List.append_nil]
    | cons ln2 N'' =>
      rw [joinNl_cons _ _ (by simp)]
      unfold subTrail
      rw [List.foldr_append, List.foldr_cons, subTrailF_nl,
        show List.foldr subTrailF [] (joinNl (ln2 :: N'')) = subTrail (joinNl (ln2 :: N'')) from rfl,
        ih (fun m hm => hl m (List.mem_cons_of_mem _ hm)),
        foldr_subTrailF ln _ (hl ln (List.mem_cons_self _ _)).1
          (hl ln (List.mem_cons_self _ _)).2]

theorem subLead_nil : subLead [] = [] := by rw [subLead]

theorem subLead_cons_ne (c : Char) (rest : List Char) (h : ¬(c = '\n')) :
    subLead (c :: rest) = c :: subLead rest := by
  rw [subLead, if_neg h]

theorem subLead_nl (rest : List Char) :
    subLead ('\n' :: rest) =
      '\n' :: subLead (rest.dropWhile (fun d => d = ' ' || d = '\t')) := by
  rw [subLead, if_pos rfl]

theorem subLead_append {m : List Char} (z : List Char) (hm : '\n' ∉ m) :
    subLead (m ++ z) = m ++ subLead z := by
  induction m with
  | nil => rfl
  | cons c m' ih =>
    rw [List.cons_append,
      subLead_cons_ne c _ (fun hc => hm (by rw [← hc]; exact List.mem_cons_self _ _)),
      ih (fun hx => hm (List.mem_cons_of_mem _ hx))]
    rfl

theorem subLead_joinNl (N : List (List Char))
    (hl : ∀ ln ∈ N, '\n' ∉ ln ∧ ∀ d, ln.head? = some d → pyIsSpace d = false) :
    subLead (joinNl N) = joinNl N := by
  induction N with
  | nil => exact subLead_nil
  | cons ln N' ih =>
    cases N' with
    | nil =>
      show subLead ln = ln
      rw [← List.append_nil ln, subLead_append [] (hl ln (List.mem_cons_self _ _)).1,
        subLead_nil]
    | cons ln2 N'' =>
      rw [joinNl_cons _ _ (by simp),
        subLead_append _ (hl ln (List.mem_cons_self _ _)).1, subLead_nl]
      have hdw : (joinNl (ln2 :: N'')).dropWhile (fun d => (d = ' ' || d = '\t' : Bool)) =
          joinNl (ln2 :: N'') := by
        refine dropWhile_eq_self_of_head (fun d hd => ?_)
        by_cases h2 : ln2 = []
        · subst h2
          cases N'' with
          | nil => simp [joinNl] at hd
          | cons ln3 N''' =>
            have : (joinNl (([] : List Char) :: ln3 :: N''')).head? = some '\n' := by
              rw [joinNl_cons _ _ (by simp)]
              rfl
            rw [this] at hd
            injection hd with hd
            subst hd
            simp
        · rw [joinNl_head _ _ h2] at hd
          have hdws : pyIsSpace d = false := by
            cases ln2 with
            | nil => exact absurd rfl h2
            | cons c cs =>
              injection hd with hd
              rw [← hd]
              exact (hl (c :: cs) (List.mem_cons_of_mem _ (List.mem_cons_self _ _))).2 c rfl
          simp [pyIsSpace] at hdws
          simp [hdws]
      rw [hdw]
      congr 1
      congr 1
      exact ih (fun m hm => hl m (List.mem_cons_of_mem _ hm))

end Utils

namespace Utils

open PyStr

theorem takeWhile_mem {p : Char → Bool} {l : List Char} :
    ∀ c ∈ l.takeWhile p, p c = true := by
  induction l with
  | nil => simp
  | cons x xs ih =>
    intro c hc
    rw [List.takeWhile_cons] at hc
    by_cases hx : p x = true
    · rw [if_pos hx] at hc
      rcases List.mem_cons.mp hc with hc | hc
      · rw [hc]
        exact hx
      · exact ih c hc
    · rw [if_neg hx] at hc
      cases hc

theorem dropWhile_length_le (p : Char → Bool) (l : List Char) :
    (l.dropWhile p).length ≤ l.length := by
  induction l with
  | nil => simp
  | cons a as ih =>
    by_cases ha : p a = true <;> simp [List.dropWhile_cons, ha] <;> omega

theorem mem_of_head_tail {X Y : List (List Char)}
    (hh : X.head? = Y.head?) (ht : ∀ ln ∈ X.tail, ln ∈ Y.tail ∨ ln = []) :
    ∀ ln ∈ X, ln ∈ Y ∨ ln = [] := by
  intro ln hln
  cases X with
  | nil => cases hln
  | cons x xs =>
    cases Y with
    | nil => simp at hh
    | cons y ys =>
      rcases List.mem_cons.mp hln with h | h
      · injection hh with hh
        subst h
        rw [hh]
        exact Or.inl (List.mem_cons_self _ _)
      · rcases ht ln h with h2 | h2
        · exact Or.inl (List.mem_cons_of_mem _ h2)
        · exact Or.inr h2

theorem collapseNl3_cons_pos (c : Char) (rest : List Char)
    (h : c = '\n' ∧ 3 ≤ ((wsRunCore (c :: rest)).count '\n')) :
    collapseNl3 (c :: rest) =
      '\n' :: '\n' :: collapseNl3 ((c :: rest).drop (wsRunCore (c :: rest)).length) := by
  rw [collapseNl3, dif_pos h]

theorem wsRunCore_decomp (l : List Char) :
    l = wsRunCore l ++ l.drop (wsRunCore l).length := by
  obtain ⟨v, hv⟩ : ∃ v, l = wsRunCore l ++ v := by
    refine ⟨((l.takeWhile pyIsSpace).reverse.takeWhile (fun c => c ≠ '\n')).reverse ++
      l.dropWhile pyIsSpace, ?_⟩
    have hA : (l.takeWhile pyIsSpace).reverse.takeWhile (fun c => (c ≠ '\n' : Bool)) ++
        (l.takeWhile pyIsSpace).reverse.dropWhile (fun c => (c ≠ '\n' : Bool)) =
        (l.takeWhile pyIsSpace).reverse :=
      List.takeWhile_append_dropWhile (fun c => (c ≠ '\n' : Bool)) (l.takeWhile pyIsSpace).reverse
    have hB := congrArg List.reverse hA
    rw [List.reverse_append, List.reverse_reverse] at hB
    conv_lhs => rw [← List.takeWhile_append_dropWhile (p := pyIsSpace) (l := l), ← hB]
    rw [List.append_assoc]
    rfl
  have hdrop := congrArg (List.drop (wsRunCore l).length) hv
  rw [List.drop_left] at hdrop
  rw [hdrop]
  exact hv

theorem wsRunCore_ends_nl (l : List Char) (h : wsRunCore l ≠ []) :
    ∃ u, wsRunCore l = u ++ ['\n'] := by
  unfold wsRunCore at h ⊢
  cases hYc : (l.takeWhile pyIsSpace).reverse.dropWhile (fun c => (c ≠ '\n' : Bool)) with
  | nil =>
    rw [hYc] at h
    simp at h
  | cons y ys =>
    have hy : (fun c => (c ≠ '\n' : Bool)) y = false :=
      dropWhile_head_not (by rw [hYc]; rfl)
    have hy2 : y = '\n' := by simpa using hy
    refine ⟨ys.reverse, ?_⟩
    rw [List.reverse_cons, hy2]

theorem mem_splitNl_nlrun (tw rem : List Char) (h : ∀ d ∈ tw, d = '\n') :
    ∀ ln ∈ splitNl rem, ln ∈ splitNl (tw ++ rem) := by
  induction tw with
  | nil => intro ln hln; exact hln
  | cons d tw' ih =>
    intro ln hln
    have hd : d = '\n' := h d (List.mem_cons_self _ _)
    show ln ∈ splitChar '\n' (d :: (tw' ++ rem))
    rw [splitChar_cons, if_pos hd]
    exact List.mem_cons_of_mem _ (ih (fun e he => h e (List.mem_cons_of_mem _ he)) ln hln)

theorem lines_collapseNl3_aux (n : Nat) : ∀ (t : List Char), t.length = n →
    (splitNl (collapseNl3 t)).head? = (splitNl t).head? ∧
    (∀ ln ∈ (splitNl (collapseNl3 t)).tail, ln ∈ (splitNl t).tail ∨ ln = []) := by
  induction n using Nat.strong_induction_on with
  | _ n ih =>
    intro t hn
    cases t with
    | nil =>
      rw [collapseNl3_nil]
      exact ⟨rfl, by intro ln hln; cases hln⟩
    | cons c rest =>
      by_cases hg : c = '\n' ∧ 3 ≤ ((wsRunCore (c :: rest)).count '\n')
      · obtain ⟨hc, hcount⟩ := hg
        subst hc
        rw [collapseNl3_cons_pos '\n' rest ⟨rfl, hcount⟩]
        have hwne : wsRunCore ('\n' :: rest) ≠ [] := by
          intro he
          rw [he] at hcount
          simp at hcount
        obtain ⟨u, hu⟩ := wsRunCore_ends_nl _ hwne
        have hde := wsRunCore_decomp ('\n' :: rest)
        have hlen : (('\n' :: rest).drop (wsRunCore ('\n' :: rest)).length).length < n := by
          have h2 : 1 ≤ (wsRunCore ('\n' :: rest)).length :=
            List.length_pos.mpr hwne
          rw [List.length_drop]
          simp at hn ⊢
          omega
        have ihrem := ih _ hlen (('\n' :: rest).drop (wsRunCore ('\n' :: rest)).length) rfl
        have hmemrem := mem_of_head_tail ihrem.1 ihrem.2
        have hde2 : ('\n' :: rest) =
            u ++ '\n' :: (('\n' :: rest).drop (wsRunCore ('\n' :: rest)).length) := by
          conv_lhs => rw [hde]
          rw [hu, List.append_assoc]
          rfl
        have hsplit : splitNl ('\n' :: rest) =
            splitNl u ++ splitNl (('\n' :: rest).drop (wsRunCore ('\n' :: rest)).length) := by
          conv_lhs => rw [hde2]
          show splitChar '\n' (u ++ '\n' :: _) = _
          rw [splitChar_append]
          rfl
        constructor
        · show (([] : List Char) :: ([] : List Char) ::
              splitNl (collapseNl3 (('\n' :: rest).drop (wsRunCore ('\n' :: rest)).length))).head? = _
          show some [] = (splitChar '\n' ('\n' :: rest)).head?
          rw [splitChar_cons, if_pos rfl]
          rfl
        · intro ln hln
          show ln ∈ (splitNl ('\n' :: rest)).tail ∨ ln = []
          rcases List.mem_cons.mp hln with hln | hln
          · exact Or.inr hln
          · rcases hmemrem ln hln with h2 | h2
            · left
              rw [hsplit]
              cases hsu : splitNl u with
              | nil => exact absurd hsu (splitChar_ne_nil '\n' u)
              | cons u0 urest =>
                rw [List.cons_append]
                show ln ∈ urest ++ _
                exact List.mem_append_right _ h2
            · exact Or.inr h2
      · rw [collapseNl3_cons_neg c rest hg]
        have ihr := ih rest.length (by simp at hn; omega) rest rfl
        by_cases hc : c = '\n'
        · subst hc
          show ((splitChar '\n' ('\n' :: collapseNl3 rest)).head? = _) ∧ _
          rw [splitChar_cons, if_pos rfl]
          constructor
          · show some [] = (splitChar '\n' ('\n' :: rest)).head?
            rw [splitChar_cons, if_pos rfl]
            rfl
          · intro ln hln
            show ln ∈ (splitChar '\n' ('\n' :: rest)).tail ∨ ln = []
            rw [splitChar_cons, if_pos rfl]
            show ln ∈ splitNl rest ∨ ln = []
            exact mem_of_head_tail ihr.1 ihr.2 ln hln
        · show ((splitChar '\n' (c :: collapseNl3 rest)).head? = (splitNl (c :: rest)).head?) ∧
            (∀ ln ∈ (splitChar '\n' (c :: collapseNl3 rest)).tail,
              ln ∈ (splitNl (c :: rest)).tail ∨ ln = [])
          rw [splitChar_cons, if_neg hc]
          cases hsX : splitChar '\n' (collapseNl3 rest) with
          | nil => exact absurd hsX (splitChar_ne_nil '\n' _)
          | cons hX tX =>
            cases hsr : splitChar '\n' rest with
            | nil => exact absurd hsr (splitChar_ne_nil '\n' rest)
            | cons hr tr =>
              have h0 : splitNl (collapseNl3 rest) = hX :: tX := hsX
              have h1 : splitNl rest = hr :: tr := hsr
              have hhd : hX = hr := by
                have := ihr.1
                rw [h0, h1] at this
                injection this
              constructor
              · show some (c :: hX) = (splitChar '\n' (c :: rest)).head?
                rw [splitChar_cons, if_neg hc, hsr]
                rw [hhd]
                rfl
              · intro ln hln
                have hln2 : ln ∈ tX := hln
                show ln ∈ (splitChar '\n' (c :: rest)).tail ∨ ln = []
                rw [splitChar_cons, if_neg hc, hsr]
                show ln ∈ tr ∨ ln = []
                have := ihr.2
                rw [h0, h1] at this
                exact this ln hln2

theorem lines_collapseNl3_mem (t : List Char) :
    ∀ ln ∈ splitNl (collapseNl3 t), ln ∈ splitNl t ∨ ln = [] :=
  mem_of_head_tail (lines_collapseNl3_aux t.length t rfl).1
    (lines_collapseNl3_aux t.length t rfl).2

theorem lines_collapseNl2_aux (n : Nat) : ∀ (t : List Char), t.length = n →
    (splitNl (collapseNl2 t)).head? = (splitNl t).head? ∧
    (∀ ln ∈ (splitNl (collapseNl2 t)).tail, ln ∈ (splitNl t).tail ∨ ln = []) := by
  induction n using Nat.strong_induction_on with
  | _ n ih =>
    intro t hn
    cases t with
    | nil =>
      rw [collapseNl2_nil]
      exact ⟨rfl, by intro ln hln; cases hln⟩
    | cons c rest =>
      by_cases hg : c = '\n' ∧ rest.head? = some '\n'
      · obtain ⟨hc, hhd⟩ := hg
        subst hc
        rw [collapseNl2_cons_pos rest hhd]
        have hlen : (rest.dropWhile (fun d => (d = '\n' : Bool))).length < n := by
          have := dropWhile_length_le (fun d => (d = '\n' : Bool)) rest
          simp at hn
          omega
        have ihrem := ih _ hlen (rest.dropWhile (fun d => (d = '\n' : Bool))) rfl
        have hmemrem := mem_of_head_tail ihrem.1 ihrem.2
        have hsub : ∀ ln ∈ splitNl (rest.dropWhile (fun d => (d = '\n' : Bool))),
            ln ∈ splitNl rest := by
          have hre : rest = rest.takeWhile (fun d => (d = '\n' : Bool)) ++
              rest.dropWhile (fun d => (d = '\n' : Bool)) :=
            (List.takeWhile_append_dropWhile (fun d => (d = '\n' : Bool)) rest).symm
          intro ln hln
          rw [hre]
          exact mem_splitNl_nlrun _ _
            (fun d hd => by simpa using takeWhile_mem d hd) ln hln
        constructor
        · show (([] : List Char) :: ([] : List Char) :: _).head? = _
          show some [] = (splitChar '\n' ('\n' :: rest)).head?
          rw [splitChar_cons, if_pos rfl]
          rfl
        · intro ln hln
          show ln ∈ (splitNl ('\n' :: rest)).tail ∨ ln = []
          have htail : (splitNl ('\n' :: rest)).tail = splitNl rest := by
            show (splitChar '\n' ('\n' :: rest)).tail = _
            rw [splitChar_cons, if_pos rfl]
            rfl
          rw [htail]
          rcases List.mem_cons.mp hln with hln | hln
          · exact Or.inr hln
          · rcases hmemrem ln hln with h2 | h2
            · exact Or.inl (hsub ln h2)
            · exact Or.inr h2
      · rw [collapseNl2_cons_neg c rest hg]
        have ihr := ih rest.length (by simp at hn; omega) rest rfl
        by_cases hc : c = '\n'
        · subst hc
          show ((splitChar '\n' ('\n' :: collapseNl2 rest)).head? = _) ∧ _
          rw [splitChar_cons, if_pos rfl]
          constructor
          · show some [] = (splitChar '\n' ('\n' :: rest)).head?
            rw [splitChar_cons, if_pos rfl]
            rfl
          · intro ln hln
            show ln ∈ (splitChar '\n' ('\n' :: rest)).tail ∨ ln = []
            rw [splitChar_cons, if_pos rfl]
            show ln ∈ splitNl rest ∨ ln = []
            exact mem_of_head_tail ihr.1 ihr.2 ln hln
        · show ((splitChar '\n' (c :: collapseNl2 rest)).head? = (splitNl (c :: rest)).head?) ∧
            (∀ ln ∈ (splitChar '\n' (c :: collapseNl2 rest)).tail,
              ln ∈ (splitNl (c :: rest)).tail ∨ ln = [])
          rw [splitChar_cons, if_neg hc]
          cases hsX : splitChar '\n' (collapseNl2 rest) with
          | nil => exact absurd hsX (splitChar_ne_nil '\n' _)
          | cons hX tX =>
            cases hsr : splitChar '\n' rest with
            | nil => exact absurd hsr (splitChar_ne_nil '\n' rest)
            | cons hr tr =>
              have h0 : splitNl (collapseNl2 rest) = hX :: tX := hsX
              have h1 : splitNl rest = hr :: tr := hsr
              have hhd : hX = hr := by
                have := ihr.1
                rw [h0, h1] at this
                injection this
              constructor
              · show some (c :: hX) = (splitChar '\n' (c :: rest)).head?
                rw [splitChar_cons, if_neg hc, hsr]
                rw [hhd]
                rfl
              · intro ln hln
                have hln2 : ln ∈ tX := hln
                show ln ∈ (splitChar '\n' (c :: rest)).tail ∨ ln = []
                rw [splitChar_cons, if_neg hc, hsr]
                show ln ∈ tr ∨ ln = []
                have := ihr.2
                rw [h0, h1] at this
                exact this ln hln2

theorem lines_collapseNl2_mem (t : List Char) :
    ∀ ln ∈ splitNl (collapseNl2 t), ln ∈ splitNl t ∨ ln = [] :=
  mem_of_head_tail (lines_collapseNl2_aux t.length t rfl).1
    (lines_collapseNl2_aux t.length t rfl).2

end Utils

namespace PyStr

theorem mem_of_mem_dropWhile_chr {p : Char → Bool} {c : Char} {l : List Char}
    (h : c ∈ l.dropWhile p) : c ∈ l := by
  induction l with
  | nil => simpa using h
  | cons x xs ih =>
    rw [List.dropWhile_cons] at h
    by_cases hx : p x = true
    · rw [if_pos hx] at h
      exact List.mem_cons_of_mem _ (ih h)
    · rw [if_neg hx] at h
      exact h

theorem mem_pyStrip {c : Char} {l : List Char} (h : c ∈ pyStrip l) : c ∈ l := by
  unfold pyStrip at h
  rw [List.mem_reverse] at h
  have h2 := mem_of_mem_dropWhile_chr h
  rw [List.mem_reverse] at h2
  exact mem_of_mem_dropWhile_chr h2

theorem mem_collapseWsAux_or {c : Char} {b : Bool} {m : List Char}
    (h : c ∈ collapseWsAux b m) : c ∈ m ∨ c = ' ' := by
  induction m generalizing b with
  | nil => simp [collapseWsAux] at h
  | cons x xs ih =>
    rw [collapseWsAux] at h
    by_cases hx : pyIsSpace x = true
    · rw [if_pos hx] at h
      by_cases hb : b = true
      · rw [if_pos hb] at h
        rcases ih h with h | h
        · exact Or.inl (List.mem_cons_of_mem _ h)
        · exact Or.inr h
      · rw [if_neg hb] at h
        rcases List.mem_cons.mp h with h | h
        · exact Or.inr h
        · rcases ih h with h | h
          · exact Or.inl (List.mem_cons_of_mem _ h)
          · exact Or.inr h
    · rw [if_neg hx] at h
      rcases List.mem_cons.mp h with h | h
      · exact Or.inl (by rw [h]; exact List.mem_cons_self _ _)
      · rcases ih h with h | h
        · exact Or.inl (List.mem_cons_of_mem _ h)
        · exact Or.inr h

end PyStr

namespace Utils

open PyStr

theorem mem_cleanLine_or {c : Char} {m : List Char} (h : c ∈ cleanLine m) :
    c ∈ m ∨ c = ' ' := by
  rcases mem_collapseWsAux_or h with h | h
  · exact Or.inl (mem_pyStrip h)
  · exact Or.inr h

theorem nl_not_mem_cleanLine (m : List Char) : '\n' ∉ cleanLine m := by
  intro h
  have := ws_mem_cleanLine h rfl
  cases this

theorem map_fix {α : Type} (f : α → α) (l : List α) (h : ∀ a ∈ l, f a = a) :
    l.map f = l := by
  induction l with
  | nil => rfl
  | cons a as ih =>
    rw [List.map_cons, h a (List.mem_cons_self _ _),
      ih (fun b hb => h b (List.mem_cons_of_mem _ hb))]

theorem splitNl_subLines (p : List Char → Bool) (t : List Char) :
    splitNl (subLines p t) = (splitNl t).map (fun ln => if p ln then [] else ln) := by
  unfold subLines
  refine splitChar_joinNl _ (by simp [splitNl]; exact splitChar_ne_nil '\n' t) ?_
  intro ln hln
  rw [List.mem_map] at hln
  obtain ⟨ln0, hln0, hfe⟩ := hln
  by_cases hp : p ln0 = true
  · rw [← hfe, if_pos hp]
    simp
  · rw [← hfe, if_neg (by simp [hp])]
    exact mem_splitChar_not_sep '\n' t ln0 hln0

theorem subLines_eq_self (p : List Char → Bool) (t : List Char)
    (h : ∀ ln ∈ splitNl t, p ln = false) : subLines p t = t := by
  unfold subLines
  rw [map_fix _ _ (fun ln hln => if_neg (by simp [h ln hln]))]
  exact joinNl_splitChar t

theorem goodLine_clean {ln : List Char} (h : goodLine ln = true) : cleanLine ln = ln := by
  unfold goodLine at h
  simp only [Bool.and_eq_true, decide_eq_true_eq] at h
  exact h.1.1.1.1

theorem goodLine_no_nl {ln : List Char} (h : goodLine ln = true) : '\n' ∉ ln := by
  intro hm
  exact nl_not_mem_cleanLine ln (by rw [goodLine_clean h]; exact hm)

theorem goodLine_head_not_ws {ln : List Char} {d : Char} (h : goodLine ln = true)
    (hd : ln.head? = some d) : pyIsSpace d = false := by
  rw [← goodLine_clean h] at hd
  exact cleanLine_head_not_ws hd

theorem goodLine_getLast_not_ws {ln : List Char} {d : Char} (h : goodLine ln = true)
    (hd : ln.getLast? = some d) : pyIsSpace d = false := by
  rw [← goodLine_clean h] at hd
  exact cleanLine_getLast_not_ws hd

theorem goodLine_not_hash {ln : List Char} (h : goodLine ln = true) :
    isHashLine ln = false := by
  unfold goodLine at h
  simp only [Bool.and_eq_true, Bool.not_eq_true'] at h
  exact h.1.1.1.2

theorem goodLine_not_divider {ln : List Char} (h : goodLine ln = true) :
    isDividerLine ln = false := by
  unfold goodLine at h
  simp only [Bool.and_eq_true, Bool.not_eq_true'] at h
  exact h.1.1.2

theorem goodLine_not_quote {ln : List Char} (h : goodLine ln = true) :
    isQuoteLine ln = false := by
  unfold goodLine at h
  simp only [Bool.and_eq_true, Bool.not_eq_true'] at h
  exact h.1.2

theorem goodLine_no_nul {ln : List Char} (h : goodLine ln = true) : '\x00' ∉ ln := by
  unfold goodLine at h
  simp only [Bool.and_eq_true, Bool.not_eq_true'] at h
  have h2 := h.2
  intro hm
  exact absurd hm (by simpa using h2)

theorem goodLine_intro {ln : List Char} (hc : cleanLine ln = ln)
    (hh : isHashLine ln = false) (hd : isDividerLine ln = false)
    (hq : isQuoteLine ln = false) (hn : '\x00' ∉ ln) : goodLine ln = true := by
  unfold goodLine
  simp only [Bool.and_eq_true, Bool.not_eq_true', decide_eq_true_eq]
  refine ⟨⟨⟨⟨hc, hh⟩, hd⟩, hq⟩, ?_⟩
  simpa using hn

end Utils

namespace Utils

open PyStr

theorem joinNl_append_nilline (M : List (List Char)) (h : M ≠ []) :
    joinNl (M ++ [[]]) = joinNl M ++ ['\n'] := by
  induction M with
  | nil => exact absurd rfl h
  | cons x M' ih =>
    cases M' with
    | nil => rfl
    | cons y M'' =>
      rw [List.cons_append, joinNl_cons _ _ (by simp), ih (by simp)]
      conv_rhs => rw [joinNl_cons x (y :: M'') (by simp)]
      simp

theorem head?_append_left {α : Type} (M : List α) (x : α) (h : M ≠ []) :
    (M ++ [x]).head? = M.head? := by
  cases M with
  | nil => exact absurd rfl h
  | cons a as => rfl

theorem noAdjEmpty_append_left (M : List (List Char)) (x : List Char)
    (h : noAdjEmpty (M ++ [x]) = true) : noAdjEmpty M = true := by
  induction M with
  | nil => rfl
  | cons a M' ih =>
    cases M' with
    | nil => exact noAdjEmpty_singleton a
    | cons b M'' =>
      rw [List.cons_append, List.cons_append] at h
      rw [noAdjEmpty_cons_cons, Bool.and_eq_true] at h
      rw [noAdjEmpty_cons_cons, Bool.and_eq_true]
      exact ⟨h.1, ih h.2⟩

theorem noAdjEmpty_getLast_ne (M : List (List Char)) (hMne : M ≠ [])
    (hadj : noAdjEmpty (M ++ [([] : List Char)]) = true) : M.getLast? ≠ some [] := by
  induction M with
  | nil => exact absurd rfl hMne
  | cons a M' ih =>
    cases M' with
    | nil =>
      rw [List.getLast?_singleton]
      intro hcon
      injection hcon with hcon
      subst hcon
      rw [show ([([] : List Char)] ++ [([] : List Char)]) = [[], []] from rfl] at hadj
      rw [noAdjEmpty_cons_cons] at hadj
      simp at hadj
    | cons b M'' =>
      rw [List.getLast?_cons_cons]
      exact ih (by simp) (by rw [List.cons_append] at hadj; exact noAdjEmpty_tail hadj)

theorem goodLine_trail_pair {M : List (List Char)}
    (hmem : ∀ ln ∈ M, goodLine ln = true) :
    ∀ ln ∈ M, '\n' ∉ ln ∧ ∀ d, ln.getLast? = some d → pyIsSpace d = false :=
  fun ln h => ⟨goodLine_no_nl (hmem ln h),
    fun _ hd => goodLine_getLast_not_ws (hmem ln h) hd⟩

theorem goodLine_lead_pair {M : List (List Char)}
    (hmem : ∀ ln ∈ M, goodLine ln = true) :
    ∀ ln ∈ M, '\n' ∉ ln ∧ ∀ d, ln.head? = some d → pyIsSpace d = false :=
  fun ln h => ⟨goodLine_no_nl (hmem ln h),
    fun _ hd => goodLine_head_not_ws (hmem ln h) hd⟩

theorem joinNl_head_not_ws {M : List (List Char)}
    (hmem : ∀ ln ∈ M, goodLine ln = true) (hhead : M.head? ≠ some []) :
    ∀ c, (joinNl M).head? = some c → pyIsSpace c = false := by
  intro c hc
  cases M with
  | nil => cases hc
  | cons hM rest =>
    have hne : hM ≠ [] := by
      intro he
      exact hhead (by rw [he]; rfl)
    rw [joinNl_head hM rest hne] at hc
    exact goodLine_head_not_ws (hmem hM (List.mem_cons_self _ _)) hc

theorem joinNl_getLast_not_ws {M : List (List Char)}
    (hmem : ∀ ln ∈ M, goodLine ln = true) (hMne : M ≠ [])
    (hlast : M.getLast? ≠ some []) :
    ∀ c, (joinNl M).getLast? = some c → pyIsSpace c = false := by
  intro c hc
  have hgl : M.getLast? = some (M.getLast hMne) := List.getLast?_eq_getLast M hMne
  have hlne : M.getLast hMne ≠ [] := by
    intro he
    exact hlast (by rw [hgl, he])
  rw [joinNl_getLast M _ hgl hlne] at hc
  exact goodLine_getLast_not_ws (hmem _ (List.getLast_mem hMne)) hc

theorem normalForm_joinNl (M : List (List Char)) (hMne : M ≠ [])
    (hmem : ∀ ln ∈ M, goodLine ln = true) (hadj : noAdjEmpty M = true)
    (hhead : M.head? ≠ some []) (hlast : M.getLast? ≠ some []) :
    normalForm (joinNl M) = true := by
  have hfree : ∀ ln ∈ M, '\n' ∉ ln := fun ln h => goodLine_no_nl (hmem ln h)
  have hsp : splitNl (joinNl M) = M := splitChar_joinNl M hMne hfree
  unfold normalForm
  rw [hsp]
  simp [List.all_eq_true.mpr hmem, hadj, hhead, hlast]

theorem normalForm_final (M : List (List Char)) (hMne : M ≠ [])
    (hmem : ∀ ln ∈ M, goodLine ln = true) (hadj : noAdjEmpty M = true)
    (hhead : M.head? ≠ some []) (hlast : M.getLast? ≠ some []) :
    normalForm (subLead (subTrail (joinNl M))) = true := by
  rw [subTrail_joinNl M (goodLine_trail_pair hmem),
    subLead_joinNl M (goodLine_lead_pair hmem)]
  exact normalForm_joinNl M hMne hmem hadj hhead hlast

theorem subLines_line_cases (p : List Char → Bool) (t : List Char) :
    ∀ ln ∈ splitNl (subLines p t), ln = [] ∨ (p ln = false ∧ ln ∈ splitNl t) := by
  intro ln hln
  rw [splitNl_subLines, List.mem_map] at hln
  obtain ⟨ln0, h0, hfe⟩ := hln
  by_cases hp : p ln0 = true
  · rw [← hfe, if_pos hp]
    exact Or.inl rfl
  · rw [← hfe, if_neg (by simp [hp])]
    exact Or.inr ⟨Bool.eq_false_iff.mpr hp, h0⟩

end Utils

namespace Utils

open PyStr

theorem normalize_normalForm (x : List Char) : normalForm (normalize_text x) = true := by
  by_cases hnil : x = []
  · subst hnil
    rfl
  · unfold normalize_text
    rw [if_neg hnil]
    show normalForm (subLead (subTrail (pyStrip (whileTriple (joinNl (keepLines false
      ((splitNl (collapseNl2 (collapseNl3 (subLines isQuoteLine (subLines isDividerLine
        (subLines isHashLine (((pyStrip x).filter (fun c => c ≠ '\r')).filter
          (fun c => c ≠ '\x00')))))))).map cleanLine))))))) = true
    set t3 := ((pyStrip x).filter (fun c => c ≠ '\r')).filter (fun c => c ≠ '\x00') with ht3
    set t6 := subLines isQuoteLine (subLines isDividerLine (subLines isHashLine t3)) with ht6
    set t8 := collapseNl2 (collapseNl3 t6) with ht8
    set L := keepLines false ((splitNl t8).map cleanLine) with hL
    have hnul3 : '\x00' ∉ t3 := by
      intro hm
      rw [ht3, List.mem_filter] at hm
      simp at hm
    have H6 : ∀ ln ∈ splitNl t6, ln = [] ∨ (isHashLine ln = false ∧
        isDividerLine ln = false ∧ isQuoteLine ln = false ∧ ln ∈ splitNl t3) := by
      intro ln hln
      rw [ht6] at hln
      rcases subLines_line_cases _ _ ln hln with h | ⟨hq, hln5⟩
      · exact Or.inl h
      · rcases subLines_line_cases _ _ ln hln5 with h | ⟨hd, hln4⟩
        · exact Or.inl h
        · rcases subLines_line_cases _ _ ln hln4 with h | ⟨hh, hln3⟩
          · exact Or.inl h
          · exact Or.inr ⟨hh, hd, hq, hln3⟩
    have H8 : ∀ ln ∈ splitNl t8, ln = [] ∨ (isHashLine ln = false ∧
        isDividerLine ln = false ∧ isQuoteLine ln = false ∧ '\x00' ∉ ln) := by
      intro ln hln
      rw [ht8] at hln
      rcases lines_collapseNl2_mem _ ln hln with hln7 | he
      · rcases lines_collapseNl3_mem _ ln hln7 with hln6 | he
        · rcases H6 ln hln6 with he | ⟨hh, hd, hq, hln3⟩
          · exact Or.inl he
          · exact Or.inr ⟨hh, hd, hq, fun hm => hnul3 (mem_of_mem_splitNl _ _ _ hln3 hm)⟩
        · exact Or.inl he
      · exact Or.inl he
    have hLgood : ∀ ln ∈ L, goodLine ln = true := by
      intro ln hln
      rw [hL] at hln
      have hln2 := mem_keepLines hln
      rw [List.mem_map] at hln2
      obtain ⟨l0, hl0, hfe⟩ := hln2
      rcases H8 l0 hl0 with he | ⟨hh, hd, hq, hnn⟩
      · subst he
        rw [← hfe]
        decide
      · rw [← hfe]
        refine goodLine_intro (cleanLine_idem l0) ?_ ?_ ?_ ?_
        · rw [Bool.eq_false_iff]
          intro htrue
          have h2 := isHashLine_cleanLine_reflect htrue
          rw [hh] at h2
          simp at h2
        · rw [Bool.eq_false_iff]
          intro htrue
          have h2 := isDividerLine_cleanLine_reflect htrue
          rw [hd] at h2
          simp at h2
        · rw [Bool.eq_false_iff]
          intro htrue
          have h2 := isQuoteLine_cleanLine_reflect htrue
          rw [hq] at h2
          simp at h2
        · intro hm
          rcases mem_cleanLine_or hm with hm2 | hm2
          · exact hnn hm2
          · exact absurd hm2 (by decide)
    have hLshape := keepLines_shape ((splitNl t8).map cleanLine) false
    have hLadj : noAdjEmpty L = true := by
      rw [hL]
      exact hLshape.1
    have hLhead : L.head? ≠ some [] := by
      rw [hL]
      exact hLshape.2 rfl
    have hLfree : ∀ ln ∈ L, '\n' ∉ ln := fun ln h => goodLine_no_nl (hLgood ln h)
    have h10 : whileTriple (joinNl L) = joinNl L :=
      whileTriple_eq_of_no _ (hasTriple_joinNl L hLfree hLadj)
    rw [h10]
    by_cases hLnil : L = []
    · rw [hLnil]
      rw [show subTrail (pyStrip (joinNl ([] : List (List Char)))) = [] from rfl, subLead_nil]
      rfl
    · by_cases hlastL : L.getLast? = some []
      · have hgl : L.getLast? = some (L.getLast hLnil) := List.getLast?_eq_getLast L hLnil
        have hgle : L.getLast hLnil = [] := by
          rw [hgl] at hlastL
          injection hlastL
        have hdec : L.dropLast ++ [[]] = L := by
          conv_rhs => rw [← List.dropLast_append_getLast hLnil]
          rw [hgle]
        have hMne : L.dropLast ≠ [] := by
          intro he
          exact hLhead (by rw [← hdec, he]; rfl)
        have hMmem : ∀ ln ∈ L.dropLast, goodLine ln = true := fun ln h =>
          hLgood ln (by rw [← hdec]; exact List.mem_append_left _ h)
        have hMadj : noAdjEmpty L.dropLast = true :=
          noAdjEmpty_append_left _ _ (by rw [hdec]; exact hLadj)
        have hMhead : L.dropLast.head? ≠ some [] := by
          rw [← head?_append_left L.dropLast ([] : List Char) hMne, hdec]
          exact hLhead
        have hMlast : L.dropLast.getLast? ≠ some [] :=
          noAdjEmpty_getLast_ne _ hMne (by rw [hdec]; exact hLadj)
        have hstrip : pyStrip (joinNl L) = joinNl L.dropLast := by
          conv_lhs => rw [← hdec]
          rw [joinNl_append_nilline _ hMne]
          exact pyStrip_append_nl (joinNl_head_not_ws hMmem hMhead)
            (joinNl_getLast_not_ws hMmem hMne hMlast)
        rw [hstrip]
        exact normalForm_final _ hMne hMmem hMadj hMhead hMlast
      · have hstrip : pyStrip (joinNl L) = joinNl L :=
          pyStrip_eq_self (joinNl_head_not_ws hLgood hLhead)
            (joinNl_getLast_not_ws hLgood hLnil hlastL)
        rw [hstrip]
        exact normalForm_final _ hLnil hLgood hLadj hLhead hlastL

end Utils

namespace Utils

open PyStr

theorem normalize_id_of_normalForm (y : List Char) (hy : normalForm y = true) :
    normalize_text y = y := by
  by_cases hnil : y = []
  · subst hnil
    rfl
  · have hyn : y.isEmpty = false := by
      cases y with
      | nil => exact absurd rfl hnil
      | cons a as => rfl
    unfold normalForm at hy
    simp only [hyn, Bool.false_or, Bool.and_eq_true, decide_eq_true_eq] at hy
    obtain ⟨⟨⟨hall, hadj⟩, hhead⟩, hlast⟩ := hy
    have hmem : ∀ ln ∈ splitNl y, goodLine ln = true := List.all_eq_true.mp hall
    have hMne : splitNl y ≠ [] := splitChar_ne_nil '\n' y
    have hfree : ∀ ln ∈ splitNl y, '\n' ∉ ln := mem_splitChar_not_sep '\n' y
    have hjs : joinNl (splitNl y) = y := joinNl_splitChar y
    have hh : ∀ c, y.head? = some c → pyIsSpace c = false := by
      intro c hc
      rw [← hjs] at hc
      exact joinNl_head_not_ws hmem hhead c hc
    have hl : ∀ c, y.getLast? = some c → pyIsSpace c = false := by
      intro c hc
      rw [← hjs] at hc
      exact joinNl_getLast_not_ws hmem hMne hlast c hc
    have h1 : pyStrip y = y := pyStrip_eq_self hh hl
    have hmemy : ∀ c ∈ y, c = '\n' ∨ ∃ ln ∈ splitNl y, c ∈ ln := by
      intro c hc
      rw [← hjs] at hc
      exact mem_joinNl c _ hc
    have h2 : y.filter (fun c => c ≠ '\r') = y := by
      rw [List.filter_eq_self]
      intro c hc
      rcases hmemy c hc with h | ⟨ln, hln, hcl⟩
      · simp [h]
      · simp only [decide_eq_true_eq]
        intro he
        subst he
        have hc2 : ('\r' : Char) ∈ cleanLine ln := by
          rw [goodLine_clean (hmem ln hln)]
          exact hcl
        exact absurd (ws_mem_cleanLine hc2 rfl) (by decide)
    have h3 : y.filter (fun c => c ≠ '\x00') = y := by
      rw [List.filter_eq_self]
      intro c hc
      rcases hmemy c hc with h | ⟨ln, hln, hcl⟩
      · simp [h]
      · simp only [decide_eq_true_eq]
        intro he
        subst he
        exact goodLine_no_nul (hmem ln hln) hcl
    have h4 : subLines isHashLine y = y :=
      subLines_eq_self _ _ (fun ln hln => goodLine_not_hash (hmem ln hln))
    have h5 : subLines isDividerLine y = y :=
      subLines_eq_self _ _ (fun ln hln => goodLine_not_divider (hmem ln hln))
    have h6 : subLines isQuoteLine y = y :=
      subLines_eq_self _ _ (fun ln hln => goodLine_not_quote (hmem ln hln))
    have h7 : collapseNl3 y = y := by
      conv_lhs => rw [← hjs]
      conv_rhs => rw [← hjs]
      exact collapseNl3_joinNl _
        (fun ln hln => ⟨hfree ln hln, fun d hd => goodLine_head_not_ws (hmem ln hln) hd⟩)
        hadj
    have h8 : collapseNl2 y = y := by
      conv_lhs => rw [← hjs]
      conv_rhs => rw [← hjs]
      exact collapseNl2_joinNl _ hfree hadj
    have h9 : joinNl (keepLines false ((splitNl y).map cleanLine)) = y := by
      rw [map_fix _ _ (fun ln hln => goodLine_clean (hmem ln hln)),
        keepLines_eq_self hadj false (fun _ => hhead)]
      exact hjs
    have h10 : whileTriple y = y := by
      refine whileTriple_eq_of_no _ ?_
      conv_lhs => rw [← hjs]
      exact hasTriple_joinNl _ hfree hadj
    have h12 : subTrail y = y := by
      conv_lhs => rw [← hjs]
      conv_rhs => rw [← hjs]
      exact subTrail_joinNl _ (goodLine_trail_pair hmem)
    have h13 : subLead y = y := by
      conv_lhs => rw [← hjs]
      conv_rhs => rw [← hjs]
      exact subLead_joinNl _ (goodLine_lead_pair hmem)
    unfold normalize_text
    rw [if_neg hnil]
    show subLead (subTrail (pyStrip (whileTriple (joinNl (keepLines false
      ((splitNl (collapseNl2 (collapseNl3 (subLines isQuoteLine (subLines isDividerLine
        (subLines isHashLine (((pyStrip y).filter (fun c => c ≠ '\r')).filter
          (fun c => c ≠ '\x00')))))))).map cleanLine)))))) = y
    rw [h1, h2, h3, h4, h5, h6, h7, h8, h9, h10, h1, h12, h13]

end Utils

namespace Utils

/-- C10: the aggressive text normalizer `normalize_text` (utils.py lines
131-193, identical to `normalize._normalize_text`) is idempotent: for every
input string `s`, `normalize_text(normalize_text(s)) = normalize_text(s)` —
applying the whitespace-collapsing display normalization a second time
changes nothing.  Every output is in normal form (empty, or newline-joined
stripped-and-space-collapsed non-artifact lines with no leading, trailing or
adjacent blank lines), and `normalize_text` fixes every normal-form string. -/
theorem c10_normalize_idempotent (x : List Char) :
    normalize_text (normalize_text x) = normalize_text x :=
  normalize_id_of_normalForm (normalize_text x) (normalize_normalForm x)

end Utils
